import Mathlib

/-!
# Verification of the Translatio graph-construction and SNA-metrics engine

Shallow embedding of the core of `src/components/NetworkGraph.tsx`:
the attribute resolver (`getAttrValue`), the edge classifier
(`determineEdgeType`), the entity/edge builder (the `graphData` memo), the
SNA metric computations (degree, closeness/betweenness BFS, PageRank power
iteration) and the graph-level statistics (`globalMetrics`).

Machine reals (JS `number`) are modelled by `ℚ`; the decimal literals
`0.85` and `0.15` of the source become `17/20` and `3/20`.  JS strings are
modelled by `String`; `str.split(sep)` and `str.trim()` are modelled by
structurally recursive functions on the underlying character list so that
every definition evaluates by kernel reduction.
-/

namespace Translatio

/-- JS `String.prototype.split(sep)` for a non-empty separator, on
character lists, with explicit fuel (the fuel is always instantiated with
the length of the string, which suffices). -/
def jsSplitChars (sep : List Char) : Nat → List Char → List Char → List (List Char)
  | 0, acc, l => [acc.reverse ++ l]
  | _ + 1, acc, [] => [acc.reverse]
  | fuel + 1, acc, c :: rest =>
    if sep.isPrefixOf (c :: rest) then
      acc.reverse :: jsSplitChars sep fuel [] (List.drop sep.length (c :: rest))
    else
      jsSplitChars sep fuel (c :: acc) rest

/-- JS `s.split(sep)` (non-empty separator). -/
def jsSplit (sep : String) (s : String) : List String :=
  (jsSplitChars sep.data s.data.length [] s.data).map String.mk

/-- JS `s.trim()` on the character list (whitespace at both ends). -/
def jsTrimChars (l : List Char) : List Char :=
  ((l.dropWhile Char.isWhitespace).reverse.dropWhile Char.isWhitespace).reverse

/-- JS `s.trim()`. -/
def jsTrim (s : String) : String := String.mk (jsTrimChars s.data)

/-- JS `s < t` (lexicographic code-unit comparison), on character lists.
It agrees with JS string comparison on basic-multilingual-plane text. -/
def jsLtChars : List Char → List Char → Bool
  | [], [] => false
  | [], _ :: _ => true
  | _ :: _, [] => false
  | a :: as, b :: bs => if a = b then jsLtChars as bs else decide (a < b)

/-- JS `s < t`. -/
def jsLt (s t : String) : Bool := jsLtChars s.data t.data

/-! ## Data model (`types.ts`) -/

/-- A bibliographic record, restricted to the fields the graph engine
reads (`entry.author.name`, `entry.translator.name`, `entry.publisher`,
`entry.city`, `entry.sourceLanguage`, `entry.targetLanguage`,
`entry.customMetadata`).  `city` is optional in `types.ts` (the source
reads `entry.city || ''`), and `customMetadata` is an optional open map,
modelled as an association list (`entry.customMetadata?.[k] || ''`). -/
structure BibEntry where
  authorName : String
  translatorName : String
  publisher : String
  city : Option String
  sourceLanguage : String
  targetLanguage : String
  customMetadata : List (String × String)
deriving DecidableEq, Repr

/-- The `EdgeType` union of `types.ts`. -/
inductive EdgeType where
  | TRANSLATION | PUBLICATION | COLLABORATION | GEOGRAPHIC | LINGUISTIC | CUSTOM
deriving DecidableEq, Repr

/-- The part of `NetworkConfig` the graph engine reads. -/
structure NetworkConfig where
  selectedNodeAttrs : List String
  isDirected : Bool
  enabledEdgeTypes : List EdgeType
deriving Repr

/-! ## Attribute resolver (`getAttrValue`, NetworkGraph.tsx lines 71-80) -/

/-- Association-list lookup modelling JS `obj?.[k] || ''`. -/
def metaLookup (m : List (String × String)) (k : String) : String :=
  match m.find? (fun p => p.1 == k) with
  | some p => p.2
  | none => ""

/-- `getAttrValue(entry, attr)` — the attribute resolver. -/
def getAttrValue (entry : BibEntry) (attr : String) : String :=
  if attr = "authorName" then entry.authorName
  else if attr = "translatorName" then entry.translatorName
  else if attr = "publisher" then entry.publisher
  else if attr = "city" then entry.city.getD ""
  else if attr = "sourceLanguage" then entry.sourceLanguage
  else if attr = "targetLanguage" then entry.targetLanguage
  else if ("custom:".data).isPrefixOf attr.data then
    metaLookup entry.customMetadata ((jsSplit ":" attr).getD 1 "")
  else ""

/-! ## Edge classifier (`determineEdgeType`, lines 82-89) -/

/-- `determineEdgeType(attr1, attr2)` — the edge classifier. -/
def determineEdgeType (attr1 attr2 : String) : EdgeType :=
  if (attr1 = "authorName" ∧ attr2 = "translatorName") ∨
     (attr1 = "translatorName" ∧ attr2 = "authorName") then .TRANSLATION
  else if attr1 = "publisher" ∨ attr2 = "publisher" then .PUBLICATION
  else if attr1 = attr2 ∧ attr1 = "translatorName" then .COLLABORATION
  else if attr1 = "city" ∨ attr2 = "city" then .GEOGRAPHIC
  else if attr1 = "sourceLanguage" ∨ attr2 = "sourceLanguage" ∨
          attr1 = "targetLanguage" ∨ attr2 = "targetLanguage" then .LINGUISTIC
  else .CUSTOM

/-! ## Entity/edge builder (the `graphData` memo, lines 91-127) -/

/-- The absence filter of line 95:
`val && val !== 'Unknown' && val !== 'N/A' && val.trim() !== ''`
(JS string truthiness is non-emptiness). -/
def presentVal (val : String) : Bool :=
  val ≠ "" ∧ val ≠ "Unknown" ∧ val ≠ "N/A" ∧ jsTrim val ≠ ""

/-- One entity mention `{id, name, type}` pushed on line 97. -/
structure Mention where
  id : String
  name : String
  dim : String
deriving DecidableEq, Repr

/-- The node id `` `${attr}:${val}` `` of line 96. -/
def mkId (attr val : String) : String := attr ++ ":" ++ val

/-- The `entities` array collected per record (lines 92-105): one mention
per selected dimension whose resolved value passes the absence filter. -/
def mentionsOf (cfg : NetworkConfig) (entry : BibEntry) : List Mention :=
  cfg.selectedNodeAttrs.filterMap (fun attr =>
    let val := getAttrValue entry attr
    if presentVal val then some ⟨mkId attr val, val, attr⟩ else none)

/-- A stored node (`nodesMap` value, lines 99-102): the metric fields are
computed later by the metrics engine, so only the identity attributes are
kept here. -/
structure NodeEntry where
  id : String
  name : String
  group : String
deriving DecidableEq, Repr

/-- `nodesMap.set(id, …)` guarded by `!nodesMap.has(id)` (line 98),
with JS `Map` insertion order. -/
def insertNode (ns : List NodeEntry) (m : Mention) : List NodeEntry :=
  if ns.any (fun n => n.id == m.id) then ns else ns ++ [⟨m.id, m.name, m.dim⟩]

/-- A stored edge accumulator (`linkMap` value, line 117). -/
structure LinkInfo where
  weight : Nat
  ty : EdgeType
deriving DecidableEq, Repr

/-- The link key of line 116:
`` config.isDirected ? `${s}->${t}` : (s < t ? `${s}|${t}` : `${t}|${s}`) ``. -/
def linkKey (directed : Bool) (s t : String) : String :=
  if directed then s ++ "->" ++ t
  else if jsLt s t then s ++ "|" ++ t else t ++ "|" ++ s

/-- Lines 117-118: create the key with weight 0 if absent, then increment
its weight (the classified type is recorded only on creation). -/
def bumpLink (ls : List (String × LinkInfo)) (k : String) (ty : EdgeType) :
    List (String × LinkInfo) :=
  if ls.any (fun p => p.1 == k) then
    ls.map (fun p => if p.1 = k then (p.1, ⟨p.2.weight + 1, p.2.ty⟩) else p)
  else ls ++ [(k, ⟨1, ty⟩)]

/-- All ordered index pairs `i < j` of the nested loops of lines 107-108,
in iteration order. -/
def allPairs : List α → List (α × α)
  | [] => []
  | x :: xs => xs.map (fun y => (x, y)) ++ allPairs xs

/-- Builder state: `nodesMap` and `linkMap` in insertion order. -/
structure BuildState where
  nodes : List NodeEntry
  links : List (String × LinkInfo)
deriving Repr

/-- Processing of one record (`data.forEach(entry => …)`, lines 91-121):
collect the mentions, create missing nodes, then classify and accumulate
every pair of mentions, skipping disabled edge types and self-loops. -/
def processEntry (cfg : NetworkConfig) (st : BuildState) (entry : BibEntry) :
    BuildState :=
  let ms := mentionsOf cfg entry
  let nodes' := ms.foldl insertNode st.nodes
  let links' := (allPairs ms).foldl (fun acc (mm : Mention × Mention) =>
    let ty := determineEdgeType mm.1.dim mm.2.dim
    if ty ∈ cfg.enabledEdgeTypes then
      if mm.1.id = mm.2.id then acc
      else bumpLink acc (linkKey cfg.isDirected mm.1.id mm.2.id) ty
    else acc) st.links
  ⟨nodes', links'⟩

/-- The whole build pass over the record set. -/
def buildGraphState (records : List BibEntry) (cfg : NetworkConfig) : BuildState :=
  records.foldl (processEntry cfg) ⟨[], []⟩

/-- A produced link (lines 124-127): the endpoints are recovered by
splitting the key on `'->'` (directed) or `'|'` (undirected);
`parts[1]` being `undefined` for a separator-free key is modelled by `""`. -/
structure GraphLink where
  source : String
  target : String
  weight : Nat
  ty : EdgeType
deriving DecidableEq, Repr

/-- `linkList` (lines 124-127). -/
def linkListOf (directed : Bool) (links : List (String × LinkInfo)) :
    List GraphLink :=
  links.map (fun p =>
    let parts := jsSplit (if directed then "->" else "|") p.1
    ⟨parts.getD 0 "", parts.getD 1 "", p.2.weight, p.2.ty⟩)

/-! ## Metrics engine (lines 129-200)

The metric computations of the source operate on `nodeList` (node ids) and
`linkList`; the adjacency record is an association list in node-insertion
order. -/

/-- The adjacency record type (`Record<string, string[]>`). -/
abbrev Adj := List (String × List String)

/-- `adjacency[x]` with the `?.` guard of line 159: a missing key yields
no neighbours. -/
def adjGet (adj : Adj) (x : String) : List String :=
  match adj.find? (fun p => p.1 == x) with
  | some p => p.2
  | none => []

/-- `adjacency[k].push(v)` (a no-op on a missing key; on the missing-key
case the source would throw, and every theorem below that depends on the
push carries the hypothesis ruling that case out). -/
def adjPush (adj : Adj) (k v : String) : Adj :=
  adj.map (fun p => if p.1 = k then (p.1, p.2 ++ [v]) else p)

/-- Lines 130-136: initialise every node id with an empty list, then for
every link push the target onto the source's list, and in undirected mode
also the source onto the target's list. -/
def adjacencyOf (ids : List String) (links : List GraphLink) (directed : Bool) :
    Adj :=
  links.foldl (fun adj l =>
    let adj' := adjPush adj l.source l.target
    if directed then adj' else adjPush adj' l.target l.source)
    (ids.map (fun i => (i, [])))

/-- Pointwise bump of a tally function. -/
def bumpNat (f : String → Nat) (x : String) : String → Nat :=
  fun y => if y = x then f y + 1 else f y

/-- Degree accumulation (lines 138-145): for every link whose two
endpoints are both found in `nodeList`, the source's `degree`/`outDegree`
and the target's `degree`/`inDegree` are incremented — identically in
directed and undirected mode.  The result triple is
(`degree`, `outDegree`, `inDegree`). -/
def degreesOf (ids : List String) (links : List GraphLink) :
    (String → Nat) × (String → Nat) × (String → Nat) :=
  links.foldl (fun acc l =>
    if l.source ∈ ids ∧ l.target ∈ ids then
      (bumpNat (bumpNat acc.1 l.source) l.target,
       bumpNat acc.2.1 l.source,
       bumpNat acc.2.2 l.target)
    else acc)
    (fun _ => 0, fun _ => 0, fun _ => 0)

/-! ### The BFS of lines 148-170

One queue-based breadth-first traversal per start node, accumulating
`totalDist` (sum of the assigned distances of dequeued nodes) and
`reachable` (number of dequeued nodes with positive distance).  The
`discovered` field records, in order, the nodes freshly inserted into
`visited` on line 161 — exactly the nodes whose `betweenness` field is
incremented on line 164 (subject to the `findIndex` guard, applied by
`betweennessOf` below). -/
structure BfsState where
  q : List (String × Nat)
  visited : List String
  totalDist : Nat
  reachable : Nat
  discovered : List String
deriving Repr

/-- The inner `adjacency[curr]?.forEach` of lines 159-166. -/
def visitNbrs (ws : List String) (d : Nat) (st : BfsState) : BfsState :=
  ws.foldl (fun s next =>
    if next ∈ s.visited then s
    else { s with visited := s.visited ++ [next],
                  q := s.q ++ [(next, d + 1)],
                  discovered := s.discovered ++ [next] }) st

/-- The `while (q.length > 0)` loop of lines 154-167, with explicit fuel
(`q.shift()` pops at the front, pushes append at the back). -/
def bfsLoop (adj : Adj) : Nat → BfsState → BfsState
  | 0, st => st
  | fuel + 1, st =>
    match st.q with
    | [] => st
    | (c, d) :: rest =>
      bfsLoop adj fuel
        (visitNbrs (adjGet adj c)  d
          { st with q := rest,
                    totalDist := st.totalDist + d,
                    reachable := if 0 < d then st.reachable + 1 else st.reachable })

/-- Fuel that provably lets the queue drain: every node is enqueued at
most once, and enqueued nodes are the start node or adjacency values. -/
def bfsFuel (adj : Adj) (start : String) : Nat :=
  (start :: (adj.map Prod.snd).flatten).toFinset.card + 1

/-- The full traversal from one start node (lines 149-153 set up the
initial queue `[[startNode.id, 0]]` and `visited = {startNode.id}`). -/
def bfsRun (adj : Adj) (start : String) : BfsState :=
  bfsLoop adj (bfsFuel adj start)
    { q := [(start, 0)], visited := [start], totalDist := 0, reachable := 0,
      discovered := [] }

/-- Line 169: `closeness = reachable / totalDist` when `reachable > 0`,
otherwise the initial value 0. -/
def closenessOf (adj : Adj) (start : String) : ℚ :=
  let r := bfsRun adj start
  if 0 < r.reachable then (r.reachable : ℚ) / (r.totalDist : ℚ) else 0

/-- The accumulated betweenness after the outer loop of lines 148-170:
each BFS increments the betweenness of every freshly discovered node that
occurs in `nodeList` (the `findIndex` guard of lines 163-164). -/
def betweennessOf (ids : List String) (adj : Adj) : String → Nat :=
  ids.foldl (fun b s =>
    (bfsRun adj s).discovered.foldl
      (fun b' v => if v ∈ ids then bumpNat b' v else b') b)
    (fun _ => 0)

/-! ### PageRank (lines 98-103 initialisation, lines 172-186 iteration) -/

/-- Pointwise addition on a rank map. -/
def bumpQ (f : String → ℚ) (x : String) (δ : ℚ) : String → ℚ :=
  fun y => if y = x then f y + δ else f y

/-- One power-iteration round (lines 172-186): `nextPR` starts at
`0.15 / n` for every node; every node with out-neighbours distributes
`0.85 · pr/out` to each of them, and every sink distributes
`0.85 · pr/n` to every node. -/
def prRound (ids : List String) (adj : Adj) (pr : String → ℚ) : String → ℚ :=
  let n := ids.length
  ids.foldl (fun acc u =>
    let out := (adjGet adj u).length
    if 0 < out then
      (adjGet adj u).foldl (fun a t => bumpQ a t ((17/20) * pr u / out)) acc
    else
      ids.foldl (fun a t => bumpQ a t ((17/20) * pr u / n)) acc)
    (fun x => if x ∈ ids then (3/20) / (n : ℚ) else 0)

/-- `k` rounds of power iteration from the initial rank `pageRank: 1`
assigned at node creation (line 101). -/
def pageRanksAfter (ids : List String) (adj : Adj) : Nat → (String → ℚ)
  | 0 => fun x => if x ∈ ids then 1 else 0
  | k + 1 => prRound ids adj (pageRanksAfter ids adj k)

/-- The sum of a rank map over the node list. -/
def prSum (ids : List String) (f : String → ℚ) : ℚ := (ids.map f).sum

/-! ### Graph-level statistics (`globalMetrics`, lines 191-200) -/

structure GlobalMetrics where
  nodeCount : Nat
  edgeCount : Nat
  density : ℚ
  avgDegree : ℚ
deriving Repr

/-- `globalMetrics` of lines 191-200 (real division modelled on `ℚ`). -/
def globalMetricsOf (directed : Bool) (g : BuildState) : GlobalMetrics :=
  let n := g.nodes.length
  let e := (linkListOf directed g.links).length
  { nodeCount := n
    edgeCount := e
    density :=
      if 1 < n then
        if directed then (e : ℚ) / ((n : ℚ) * ((n : ℚ) - 1))
        else (2 * e : ℚ) / ((n : ℚ) * ((n : ℚ) - 1))
      else 0
    avgDegree := if 0 < n then (2 * e : ℚ) / (n : ℚ) else 0 }

/-! ## Mathematical reachability and shortest-path distance

Reference definitions (independent of the traversal code) against which
the BFS of lines 148-170 is verified: `ball adj s n` is the set of nodes
reachable from `s` in at most `n` steps of the adjacency relation, and the
shortest-path distance of a reachable node is the least `n` with
membership in `ball adj s n`. -/

/-- Nodes reachable from `s` in at most `n` adjacency steps. -/
def ball (adj : Adj) (s : String) : Nat → Finset String
  | 0 => {s}
  | n + 1 => ball adj s n ∪ (ball adj s n).biUnion (fun u => (adjGet adj u).toFinset)

/-- `v` is reachable from `s` (in any number of steps). -/
def reaches (adj : Adj) (s v : String) : Prop := ∃ n, v ∈ ball adj s n

/-- The least `k ≤ n` satisfying `p`, if any. -/
def leastLe (p : Nat → Bool) : Nat → Option Nat
  | 0 => if p 0 then some 0 else none
  | n + 1 =>
    match leastLe p n with
    | some k => some k
    | none => if p (n + 1) then some (n + 1) else none

/-- An index by which `ball` has provably saturated. -/
def ballBound (adj : Adj) (s : String) : Nat :=
  (s :: (adj.map Prod.snd).flatten).toFinset.card

/-- The set of all nodes reachable from `s`. -/
def reachFinset (adj : Adj) (s : String) : Finset String :=
  ball adj s (ballBound adj s)

/-- The shortest-path distance from `s` to `v` (meaningful when
`v ∈ reachFinset adj s`; 0 otherwise). -/
def sdist (adj : Adj) (s v : String) : Nat :=
  (leastLe (fun n => v ∈ ball adj s n) (ballBound adj s)).getD 0

/-! ## Claim C5: the edge classifier -/

/-- Modelled from the spec (§4.3): the fixed precedence table, first
matching rule wins — rule 1 `{authorName, translatorName}` in either
order, rule 2 either side `publisher`, rule 3 both sides
`translatorName`, rule 4 either side `city`, rule 5 either side
`sourceLanguage` or `targetLanguage`, rule 6 `CUSTOM`. -/
def classifyPrecedenceSpec (a b : String) : EdgeType :=
  if (a = "authorName" ∧ b = "translatorName") ∨
     (a = "translatorName" ∧ b = "authorName") then .TRANSLATION
  else if a = "publisher" ∨ b = "publisher" then .PUBLICATION
  else if a = "translatorName" ∧ b = "translatorName" then .COLLABORATION
  else if a = "city" ∨ b = "city" then .GEOGRAPHIC
  else if a = "sourceLanguage" ∨ a = "targetLanguage" ∨
          b = "sourceLanguage" ∨ b = "targetLanguage" then .LINGUISTIC
  else .CUSTOM

/-- C5: the edge classifier is pure and order-independent —
`classify(a,b) = classify(b,a)` for every pair of dimension keys — and
implements exactly the fixed precedence table of §4.3 in which the first
matching rule wins. -/
theorem claim_C5_classifier_symmetric_precedence :
    (∀ a b, determineEdgeType a b = determineEdgeType b a) ∧
    (∀ a b, determineEdgeType a b = classifyPrecedenceSpec a b) := by
  constructor
  · intro a b
    unfold determineEdgeType
    split_ifs <;> try rfl
    all_goals exfalso
    all_goals casesm* _ ∨ _, _ ∧ _
    all_goals (subst_vars; simp_all)
  · intro a b
    unfold determineEdgeType classifyPrecedenceSpec
    split_ifs <;> try rfl
    all_goals exfalso
    all_goals casesm* _ ∨ _, _ ∧ _
    all_goals (subst_vars; simp_all)

/-! ## `linkMap` association-list lemmas -/

/-- `linkMap.get(k)` — `none` models `undefined`. -/
def lookupLink (ls : List (String × LinkInfo)) (k : String) : Option LinkInfo :=
  (ls.find? (fun p => p.1 == k)).map Prod.snd

lemma anyKey_iff (ls : List (String × LinkInfo)) (k : String) :
    ls.any (fun p => p.1 == k) = true ↔ k ∈ ls.map Prod.fst := by
  simp only [List.any_eq_true, beq_iff_eq, List.mem_map]

lemma mem_bumpLink {ls : List (String × LinkInfo)} {k : String} {ty : EdgeType}
    {q : String × LinkInfo} (hq : q ∈ bumpLink ls k ty) :
    (∃ p ∈ ls, q.1 = p.1 ∧ q.2.ty = p.2.ty) ∨ q = (k, ⟨1, ty⟩) := by
  unfold bumpLink at hq
  split at hq
  · rcases List.mem_map.1 hq with ⟨p, hp, rfl⟩
    by_cases h : p.1 = k <;> simp only [h, if_pos, if_neg, if_true, if_false] <;>
      exact Or.inl ⟨p, hp, by simp [h]⟩
  · rcases List.mem_append.1 hq with h | h
    · exact Or.inl ⟨q, h, rfl, rfl⟩
    · simp at h; exact Or.inr (by simp [h])

lemma keys_bumpLink_of_mem {ls : List (String × LinkInfo)} {k : String}
    (ty : EdgeType) (h : k ∈ ls.map Prod.fst) :
    (bumpLink ls k ty).map Prod.fst = ls.map Prod.fst := by
  unfold bumpLink
  rw [if_pos ((anyKey_iff ls k).2 h)]
  rw [List.map_map]
  refine List.map_congr_left (fun p _ => ?_)
  by_cases hp : p.1 = k <;> simp [hp]

lemma keys_bumpLink_of_not_mem {ls : List (String × LinkInfo)} {k : String}
    (ty : EdgeType) (h : k ∉ ls.map Prod.fst) :
    (bumpLink ls k ty).map Prod.fst = ls.map Prod.fst ++ [k] := by
  unfold bumpLink
  rw [if_neg]
  · simp
  · simp only [ne_eq, anyKey_iff]
    simp [h]

lemma lookupLink_bumpLink_self_of_some {ls : List (String × LinkInfo)}
    {k : String} {info : LinkInfo} (ty : EdgeType)
    (h : lookupLink ls k = some info) :
    lookupLink (bumpLink ls k ty) k = some ⟨info.weight + 1, info.ty⟩ := by
  unfold lookupLink at h ⊢
  rcases Option.map_eq_some'.1 h with ⟨p, hp, rfl⟩
  have hk : k ∈ ls.map Prod.fst := by
    have := List.find?_some hp
    have hmem := List.mem_of_find?_eq_some hp
    simp at this
    exact List.mem_map.2 ⟨p, hmem, this⟩
  unfold bumpLink
  rw [if_pos ((anyKey_iff ls k).2 hk)]
  rw [List.find?_map]
  have hpred : (fun q : String × LinkInfo => q.1 == k) ∘
      (fun p : String × LinkInfo =>
        if p.1 = k then (p.1, LinkInfo.mk (p.2.weight + 1) p.2.ty) else p) =
      (fun q : String × LinkInfo => q.1 == k) := by
    funext q; by_cases hq : q.1 = k <;> simp [hq]
  rw [hpred, hp]
  have hpk : p.1 = k := by have := List.find?_some hp; simpa using this
  simp [hpk]

lemma lookupLink_bumpLink_self_of_none {ls : List (String × LinkInfo)}
    {k : String} (ty : EdgeType) (h : lookupLink ls k = none) :
    lookupLink (bumpLink ls k ty) k = some ⟨1, ty⟩ := by
  unfold lookupLink at h ⊢
  have hfind : ls.find? (fun p => p.1 == k) = none := by
    cases hf : ls.find? (fun p => p.1 == k) <;> simp [hf] at h ⊢
  have hk : k ∉ ls.map Prod.fst := by
    intro hmem
    rcases List.mem_map.1 hmem with ⟨p, hp, rfl⟩
    have := List.find?_eq_none.1 hfind p hp
    simp at this
  unfold bumpLink
  rw [if_neg (fun hc => hk ((anyKey_iff ls k).1 hc))]
  rw [List.find?_append, hfind]
  simp

lemma lookupLink_bumpLink_other {ls : List (String × LinkInfo)}
    {k k' : String} (ty : EdgeType) (h : k' ≠ k) :
    lookupLink (bumpLink ls k ty) k' = lookupLink ls k' := by
  unfold lookupLink bumpLink
  split
  · rw [List.find?_map]
    have hpred : (fun q : String × LinkInfo => q.1 == k') ∘
        (fun p : String × LinkInfo =>
          if p.1 = k then (p.1, LinkInfo.mk (p.2.weight + 1) p.2.ty) else p) =
        (fun q : String × LinkInfo => q.1 == k') := by
      funext q; by_cases hq : q.1 = k <;> simp [hq]
    rw [hpred]
    cases hf : ls.find? (fun p => p.1 == k') with
    | none => simp
    | some p =>
      have hpk : p.1 = k' := by have := List.find?_some hf; simpa using this
      have : p.1 ≠ k := by rw [hpk]; exact h
      simp [this]
  · rw [List.find?_append]
    cases hf : ls.find? (fun p => p.1 == k') with
    | none => simp [Ne.symm h]
    | some p => simp

/-! ## Claim C10: COLLABORATION edges are unreachable from the builder -/

lemma collab_imp_eq {a b : String}
    (h : determineEdgeType a b = .COLLABORATION) : a = b := by
  unfold determineEdgeType at h
  split_ifs at h <;> simp_all

lemma mentionsOf_map_dim (cfg : NetworkConfig) (e : BibEntry) :
    (mentionsOf cfg e).map Mention.dim =
      cfg.selectedNodeAttrs.filter (fun attr => presentVal (getAttrValue e attr)) := by
  unfold mentionsOf
  induction cfg.selectedNodeAttrs with
  | nil => rfl
  | cons a l ih =>
    simp only [List.filterMap_cons, List.filter_cons]
    by_cases h : presentVal (getAttrValue e a) <;> simp [h, ih]

lemma allPairs_ne_dim {l : List Mention} (h : (l.map Mention.dim).Nodup) :
    ∀ xy ∈ allPairs l, xy.1.dim ≠ xy.2.dim := by
  induction l with
  | nil => intro xy hxy; simp [allPairs] at hxy
  | cons x xs ih =>
    simp only [List.map_cons, List.nodup_cons] at h
    intro xy hxy
    rcases List.mem_append.1 hxy with hm | hm
    · rcases List.mem_map.1 hm with ⟨y, hy, rfl⟩
      intro hd
      exact h.1 (hd ▸ List.mem_map.2 ⟨y, hy, rfl⟩)
    · exact ih h.2 xy hm

/-- Every stored link's type was produced by classifying two distinct
dimension keys. -/
def LinkTyOk (ls : List (String × LinkInfo)) : Prop :=
  ∀ p ∈ ls, ∃ a b, a ≠ b ∧ p.2.ty = determineEdgeType a b

lemma LinkTyOk_bumpLink {ls : List (String × LinkInfo)} {k : String}
    {a b : String} (h : LinkTyOk ls) (hab : a ≠ b) :
    LinkTyOk (bumpLink ls k (determineEdgeType a b)) := by
  intro q hq
  rcases mem_bumpLink hq with ⟨p, hp, _, hty⟩ | rfl
  · rcases h p hp with ⟨a', b', hab', h'⟩
    exact ⟨a', b', hab', hty.trans h'⟩
  · exact ⟨a, b, hab, rfl⟩

lemma LinkTyOk_pairsFold (cfg : NetworkConfig)
    {pairs : List (Mention × Mention)}
    (hpairs : ∀ xy ∈ pairs, xy.1.dim ≠ xy.2.dim) :
    ∀ acc, LinkTyOk acc →
      LinkTyOk (pairs.foldl (fun acc (mm : Mention × Mention) =>
        let ty := determineEdgeType mm.1.dim mm.2.dim
        if ty ∈ cfg.enabledEdgeTypes then
          if mm.1.id = mm.2.id then acc
          else bumpLink acc (linkKey cfg.isDirected mm.1.id mm.2.id) ty
        else acc) acc) := by
  induction pairs with
  | nil => intro acc h; exact h
  | cons mm rest ih =>
    intro acc h
    simp only [List.foldl_cons]
    have hmm : mm.1.dim ≠ mm.2.dim := hpairs mm (List.mem_cons_self mm rest)
    have hrest : ∀ xy ∈ rest, xy.1.dim ≠ xy.2.dim :=
      fun xy hxy => hpairs xy (List.mem_cons_of_mem mm hxy)
    refine ih hrest _ ?_
    by_cases h1 : determineEdgeType mm.1.dim mm.2.dim ∈ cfg.enabledEdgeTypes <;>
      by_cases h2 : mm.1.id = mm.2.id <;>
      simp only [h1, h2, if_pos, if_neg, if_true, if_false] <;>
      first
        | exact h
        | exact LinkTyOk_bumpLink h hmm

lemma LinkTyOk_processEntry {cfg : NetworkConfig} {st : BuildState}
    (e : BibEntry) (hdims : cfg.selectedNodeAttrs.Nodup)
    (h : LinkTyOk st.links) : LinkTyOk (processEntry cfg st e).links := by
  have hnd : ((mentionsOf cfg e).map Mention.dim).Nodup := by
    rw [mentionsOf_map_dim]
    exact hdims.filter _
  exact LinkTyOk_pairsFold cfg (allPairs_ne_dim hnd) st.links h

lemma LinkTyOk_foldl {cfg : NetworkConfig} (hdims : cfg.selectedNodeAttrs.Nodup) :
    ∀ (records : List BibEntry) (st : BuildState), LinkTyOk st.links →
      LinkTyOk (records.foldl (processEntry cfg) st).links := by
  intro records
  induction records with
  | nil => exact fun st h => h
  | cons r rest ih =>
    intro st h
    simp only [List.foldl_cons]
    exact ih _ (LinkTyOk_processEntry r hdims h)

lemma LinkTyOk_buildGraphState (records : List BibEntry) (cfg : NetworkConfig)
    (hdims : cfg.selectedNodeAttrs.Nodup) :
    LinkTyOk (buildGraphState records cfg).links :=
  LinkTyOk_foldl hdims records ⟨[], []⟩ (fun p hp => by simp at hp)

/-- C10: for every record set and every duplicate-free active-dimension
list, no edge of the built graph has type `COLLABORATION`: the endpoint
dimensions of every candidate pair are distinct, so the classifier branch
requiring both sides `translatorName` is unreachable from the builder. -/
theorem claim_C10_no_collaboration_edges (records : List BibEntry)
    (cfg : NetworkConfig) (hdims : cfg.selectedNodeAttrs.Nodup) :
    ∀ l ∈ linkListOf cfg.isDirected (buildGraphState records cfg).links,
      l.ty ≠ EdgeType.COLLABORATION := by
  intro l hl
  rcases List.mem_map.1 hl with ⟨p, hp, rfl⟩
  rcases LinkTyOk_buildGraphState records cfg hdims p hp with ⟨a, b, hab, hty⟩
  intro hcol
  exact hab (collab_imp_eq (hty.symm.trans hcol))

/-! ## Concrete sample inputs used by witnesses and counterexamples

`allEdgeTypesList` matches the default `enabledEdgeTypes` configuration of
the component (line 38). -/

def allEdgeTypesList : List EdgeType :=
  [.TRANSLATION, .PUBLICATION, .COLLABORATION, .GEOGRAPHIC, .LINGUISTIC, .CUSTOM]

/-- `{author:"A", translator:"B", publisher:"P1"}` (spec §8, scenario 1). -/
def sampleRec : BibEntry := ⟨"A", "B", "P1", none, "pt", "de", []⟩

/-- `{author:"A", translator:"C", publisher:"P1"}` (spec §8, scenario 1). -/
def sampleRec2 : BibEntry := ⟨"A", "C", "P1", none, "pt", "de", []⟩

/-- Author/translator dimensions, directed. -/
def cfgDirAT : NetworkConfig := ⟨["authorName", "translatorName"], true, allEdgeTypesList⟩

/-- Author/translator/publisher dimensions, undirected. -/
def cfgUndirATP : NetworkConfig :=
  ⟨["authorName", "translatorName", "publisher"], false, allEdgeTypesList⟩

/-- Witness for C10 at a concrete input: building one record with the
author/translator dimensions yields the TRANSLATION link, which is not a
COLLABORATION edge. -/
theorem claim_C10_no_collaboration_edges_witness :
    GraphLink.mk "authorName:A" "translatorName:B" 1 .TRANSLATION ∈
      linkListOf cfgDirAT.isDirected (buildGraphState [sampleRec] cfgDirAT).links ∧
    (GraphLink.mk "authorName:A" "translatorName:B" 1 .TRANSLATION).ty ≠
      EdgeType.COLLABORATION :=
  ⟨by decide,
   claim_C10_no_collaboration_edges [sampleRec] cfgDirAT (by decide) _ (by decide)⟩

/-! ## Claim C7: weight monotonicity -/

/-- Every stored edge survives with the same type and a weight at least as
large. -/
def WeightGE (ls ls' : List (String × LinkInfo)) : Prop :=
  ∀ k info, lookupLink ls k = some info →
    ∃ w', info.weight ≤ w' ∧ lookupLink ls' k = some ⟨w', info.ty⟩

lemma WeightGE_refl (ls : List (String × LinkInfo)) : WeightGE ls ls :=
  fun _ info h => ⟨info.weight, le_rfl, by cases info; exact h⟩

lemma WeightGE_trans {l1 l2 l3 : List (String × LinkInfo)}
    (h12 : WeightGE l1 l2) (h23 : WeightGE l2 l3) : WeightGE l1 l3 := by
  intro k info h
  rcases h12 k info h with ⟨w', hw', h2⟩
  rcases h23 k ⟨w', info.ty⟩ h2 with ⟨w'', hw'', h3⟩
  exact ⟨w'', le_trans hw' hw'', h3⟩

lemma WeightGE_bumpLink (ls : List (String × LinkInfo)) (k' : String)
    (ty : EdgeType) : WeightGE ls (bumpLink ls k' ty) := by
  intro k info h
  by_cases hk : k = k'
  · subst hk
    exact ⟨info.weight + 1, Nat.le_succ _,
      lookupLink_bumpLink_self_of_some ty h⟩
  · rw [lookupLink_bumpLink_other ty hk]
    exact ⟨info.weight, le_rfl, by cases info; exact h⟩

lemma WeightGE_pairsFold (cfg : NetworkConfig)
    (pairs : List (Mention × Mention)) :
    ∀ acc, WeightGE acc (pairs.foldl (fun acc (mm : Mention × Mention) =>
      let ty := determineEdgeType mm.1.dim mm.2.dim
      if ty ∈ cfg.enabledEdgeTypes then
        if mm.1.id = mm.2.id then acc
        else bumpLink acc (linkKey cfg.isDirected mm.1.id mm.2.id) ty
      else acc) acc) := by
  induction pairs with
  | nil => exact fun acc => WeightGE_refl acc
  | cons mm rest ih =>
    intro acc
    simp only [List.foldl_cons]
    refine WeightGE_trans ?_ (ih _)
    by_cases h1 : determineEdgeType mm.1.dim mm.2.dim ∈ cfg.enabledEdgeTypes <;>
      by_cases h2 : mm.1.id = mm.2.id <;>
      simp only [h1, h2, if_pos, if_neg, if_true, if_false]
    any_goals exact WeightGE_refl _
    exact WeightGE_bumpLink _ _ _

lemma WeightGE_processEntry (cfg : NetworkConfig) (st : BuildState)
    (e : BibEntry) : WeightGE st.links (processEntry cfg st e).links :=
  WeightGE_pairsFold cfg (allPairs (mentionsOf cfg e)) st.links

lemma buildGraphState_snoc (records : List BibEntry) (cfg : NetworkConfig)
    (r : BibEntry) :
    buildGraphState (records ++ [r]) cfg =
      processEntry cfg (buildGraphState records cfg) r := by
  unfold buildGraphState
  rw [List.foldl_append]
  rfl

/-- C7: appending one record whose mention list is exactly a repeat of an
existing co-occurrence pair increments that edge's weight by exactly 1,
preserves its type, and leaves every other edge unchanged; and, for an
arbitrary appended record, every existing edge survives with the same
type and a weight at least as large (no record can decrement or remove an
edge). -/
theorem claim_C7_weight_monotonicity (records : List BibEntry)
    (cfg : NetworkConfig) (r : BibEntry) :
    WeightGE (buildGraphState records cfg).links
      (buildGraphState (records ++ [r]) cfg).links ∧
    (∀ m1 m2, mentionsOf cfg r = [m1, m2] →
      determineEdgeType m1.dim m2.dim ∈ cfg.enabledEdgeTypes →
      m1.id ≠ m2.id →
      (∀ info, lookupLink (buildGraphState records cfg).links
          (linkKey cfg.isDirected m1.id m2.id) = some info →
        lookupLink (buildGraphState (records ++ [r]) cfg).links
          (linkKey cfg.isDirected m1.id m2.id) =
          some ⟨info.weight + 1, info.ty⟩) ∧
      (∀ k', k' ≠ linkKey cfg.isDirected m1.id m2.id →
        lookupLink (buildGraphState (records ++ [r]) cfg).links k' =
          lookupLink (buildGraphState records cfg).links k')) := by
  rw [buildGraphState_snoc]
  constructor
  · exact WeightGE_processEntry cfg _ r
  · intro m1 m2 hms hen hne
    have hlinks : (processEntry cfg (buildGraphState records cfg) r).links =
        bumpLink (buildGraphState records cfg).links
          (linkKey cfg.isDirected m1.id m2.id)
          (determineEdgeType m1.dim m2.dim) := by
      unfold processEntry
      rw [hms]
      simp only [allPairs, List.map_nil, List.map_cons, List.nil_append,
        List.append_nil, List.foldl_cons, List.foldl_nil]
      rw [if_pos hen, if_neg hne]
    rw [hlinks]
    constructor
    · intro info h
      exact lookupLink_bumpLink_self_of_some _ h
    · intro k' hk'
      exact lookupLink_bumpLink_other _ hk'

/-- Witness for C7: repeating scenario 1's first record doubles the
TRANSLATION edge's weight from 1 to 2 and leaves the graph otherwise
unchanged. -/
theorem claim_C7_weight_monotonicity_witness :
    mentionsOf cfgDirAT sampleRec =
      [⟨"authorName:A", "A", "authorName"⟩,
       ⟨"translatorName:B", "B", "translatorName"⟩] ∧
    lookupLink (buildGraphState ([sampleRec] ++ [sampleRec]) cfgDirAT).links
      "authorName:A->translatorName:B" = some ⟨2, .TRANSLATION⟩ := by
  constructor
  · decide
  · have h := (claim_C7_weight_monotonicity [sampleRec] cfgDirAT sampleRec).2
      ⟨"authorName:A", "A", "authorName"⟩
      ⟨"translatorName:B", "B", "translatorName"⟩
      (by decide) (by decide) (by decide)
    have h2 := h.1 ⟨1, .TRANSLATION⟩ (by decide)
    exact h2

/-! ## Claim C6: node identity -/

/-- All mention ids produced over the record set, in order. -/
def mentionIdsOf (records : List BibEntry) (cfg : NetworkConfig) : List String :=
  (records.map (fun e => (mentionsOf cfg e).map Mention.id)).flatten

/-- All `(dimension, value)` pairs of mentions over the record set. -/
def mentionPairsOf (records : List BibEntry) (cfg : NetworkConfig) :
    List (String × String) :=
  (records.map (fun e => (mentionsOf cfg e).map (fun m => (m.dim, m.name)))).flatten

lemma anyNodeId_iff (ns : List NodeEntry) (x : String) :
    ns.any (fun n => n.id == x) = true ↔ x ∈ ns.map NodeEntry.id := by
  simp only [List.any_eq_true, beq_iff_eq, List.mem_map]

lemma mem_ids_insertNode (ns : List NodeEntry) (m : Mention) (x : String) :
    x ∈ (insertNode ns m).map NodeEntry.id ↔
      x ∈ ns.map NodeEntry.id ∨ x = m.id := by
  unfold insertNode
  by_cases h : ns.any (fun n => n.id == m.id) = true
  · rw [if_pos h]
    have hm := (anyNodeId_iff ns m.id).1 h
    constructor
    · exact Or.inl
    · rintro (hx | rfl)
      · exact hx
      · exact hm
  · rw [if_neg h]
    simp

lemma nodup_ids_insertNode {ns : List NodeEntry} (m : Mention)
    (h : (ns.map NodeEntry.id).Nodup) :
    ((insertNode ns m).map NodeEntry.id).Nodup := by
  unfold insertNode
  by_cases hc : ns.any (fun n => n.id == m.id) = true
  · rw [if_pos hc]; exact h
  · rw [if_neg hc]
    have hm : m.id ∉ ns.map NodeEntry.id := fun hx => hc ((anyNodeId_iff ns m.id).2 hx)
    simp [List.nodup_append, h, hm]

/-- Well-formedness of stored nodes: the id is the `dim:value` string and
the group is a selected dimension. -/
def NodesWF (cfg : NetworkConfig) (ns : List NodeEntry) : Prop :=
  ∀ n ∈ ns, n.id = mkId n.group n.name ∧ n.group ∈ cfg.selectedNodeAttrs

lemma mentionsOf_mem {cfg : NetworkConfig} {e : BibEntry} {m : Mention}
    (hm : m ∈ mentionsOf cfg e) :
    m.id = mkId m.dim m.name ∧ m.dim ∈ cfg.selectedNodeAttrs := by
  unfold mentionsOf at hm
  rcases List.mem_filterMap.1 hm with ⟨attr, ha, hsome⟩
  simp only [] at hsome
  split at hsome
  · cases hsome
    exact ⟨rfl, ha⟩
  · cases hsome

lemma nodesWF_insertNode {cfg : NetworkConfig} {ns : List NodeEntry} {m : Mention}
    (h : NodesWF cfg ns) (hm : m.id = mkId m.dim m.name)
    (hd : m.dim ∈ cfg.selectedNodeAttrs) : NodesWF cfg (insertNode ns m) := by
  unfold insertNode
  by_cases hc : ns.any (fun n => n.id == m.id) = true
  · rw [if_pos hc]; exact h
  · rw [if_neg hc]
    intro n hn
    rcases List.mem_append.1 hn with hn | hn
    · exact h n hn
    · simp at hn
      subst hn
      exact ⟨hm, hd⟩

lemma foldl_insertNode_props (cfg : NetworkConfig) (e : BibEntry) :
    ∀ (ms : List Mention), (∀ m ∈ ms, m ∈ mentionsOf cfg e) →
      ∀ ns, (ns.map NodeEntry.id).Nodup → NodesWF cfg ns →
      (((ms.foldl insertNode ns).map NodeEntry.id).Nodup ∧
       NodesWF cfg (ms.foldl insertNode ns) ∧
       ∀ x, x ∈ (ms.foldl insertNode ns).map NodeEntry.id ↔
         x ∈ ns.map NodeEntry.id ∨ x ∈ ms.map Mention.id) := by
  intro ms
  induction ms with
  | nil => intro _ ns h1 h2; exact ⟨h1, h2, fun x => by simp⟩
  | cons m ms ih =>
    intro hmem ns h1 h2
    simp only [List.foldl_cons]
    have hm := mentionsOf_mem (hmem m (List.mem_cons_self m ms))
    have hrest : ∀ m' ∈ ms, m' ∈ mentionsOf cfg e :=
      fun m' hm' => hmem m' (List.mem_cons_of_mem m hm')
    rcases ih hrest (insertNode ns m) (nodup_ids_insertNode m h1)
      (nodesWF_insertNode h2 hm.1 hm.2) with ⟨g1, g2, g3⟩
    refine ⟨g1, g2, fun x => ?_⟩
    rw [g3 x, mem_ids_insertNode]
    simp only [List.map_cons, List.mem_cons]
    tauto

lemma processEntry_nodes (cfg : NetworkConfig) (st : BuildState) (e : BibEntry) :
    (processEntry cfg st e).nodes = (mentionsOf cfg e).foldl insertNode st.nodes := rfl

lemma build_nodes_invariant (cfg : NetworkConfig) :
    ∀ (records : List BibEntry) (st : BuildState),
      (st.nodes.map NodeEntry.id).Nodup → NodesWF cfg st.nodes →
      (((records.foldl (processEntry cfg) st).nodes.map NodeEntry.id).Nodup ∧
       NodesWF cfg (records.foldl (processEntry cfg) st).nodes ∧
       ∀ x, x ∈ (records.foldl (processEntry cfg) st).nodes.map NodeEntry.id ↔
         x ∈ st.nodes.map NodeEntry.id ∨ x ∈ mentionIdsOf records cfg) := by
  intro records
  induction records with
  | nil =>
    intro st h1 h2
    refine ⟨h1, h2, fun x => ?_⟩
    simp [mentionIdsOf]
  | cons r rest ih =>
    intro st h1 h2
    simp only [List.foldl_cons]
    have hfold := foldl_insertNode_props cfg r (mentionsOf cfg r)
      (fun m hm => hm) st.nodes h1 h2
    rw [← processEntry_nodes] at hfold
    rcases hfold with ⟨g1, g2, g3⟩
    rcases ih (processEntry cfg st r) g1 g2 with ⟨f1, f2, f3⟩
    refine ⟨f1, f2, fun x => ?_⟩
    rw [f3 x, g3 x]
    simp only [mentionIdsOf, List.map_cons, List.flatten_cons, List.mem_append]
    tauto

/-! ### `mkId` is injective on colon-free dimension keys -/

lemma noColon_append_colon_inj :
    ∀ {l1 l2 r1 r2 : List Char}, ':' ∉ l1 → ':' ∉ l2 →
      l1 ++ ':' :: r1 = l2 ++ ':' :: r2 → l1 = l2 ∧ r1 = r2 := by
  intro l1
  induction l1 with
  | nil =>
    intro l2 r1 r2 _ h2 h
    cases l2 with
    | nil => simpa using h
    | cons c t =>
      simp only [List.nil_append, List.cons_append, List.cons.injEq] at h
      exact absurd (h.1 ▸ List.mem_cons_self c t) h2
  | cons c t ih =>
    intro l2 r1 r2 h1 h2 h
    cases l2 with
    | nil =>
      simp only [List.cons_append, List.nil_append, List.cons.injEq] at h
      exact absurd (h.1 ▸ List.mem_cons_self c t) h1
    | cons c' t' =>
      simp only [List.cons_append, List.cons.injEq] at h
      have hm1 : ':' ∉ t := fun hx => h1 (List.mem_cons_of_mem c hx)
      have hm2 : ':' ∉ t' := fun hx => h2 (List.mem_cons_of_mem c' hx)
      rcases ih hm1 hm2 h.2 with ⟨ht, hr⟩
      exact ⟨by rw [h.1, ht], hr⟩

lemma mkId_data (d v : String) : (mkId d v).data = d.data ++ ':' :: v.data := by
  cases d with
  | mk dd =>
    cases v with
    | mk vd =>
      show dd ++ [':'] ++ vd = dd ++ ':' :: vd
      simp

lemma mkId_inj {d1 d2 v1 v2 : String} (h1 : ':' ∉ d1.data) (h2 : ':' ∉ d2.data)
    (h : mkId d1 v1 = mkId d2 v2) : d1 = d2 ∧ v1 = v2 := by
  have hd : (mkId d1 v1).data = (mkId d2 v2).data := by rw [h]
  rw [mkId_data, mkId_data] at hd
  rcases noColon_append_colon_inj h1 h2 hd with ⟨ha, hb⟩
  cases d1; cases d2; cases v1; cases v2
  simp_all

/-- The six built-in dimension keys. -/
def builtinAttrKeys : List String :=
  ["authorName", "translatorName", "publisher", "city", "sourceLanguage",
   "targetLanguage"]

lemma builtin_noColon {d : String} (h : d ∈ builtinAttrKeys) : ':' ∉ d.data := by
  fin_cases h <;> decide

/-! ### The C6 counterexample and amended statement -/

/-- Modelled from the spec: the claimed absence filter, in which `""`,
`"Unknown"` and `"N/A"` are compared case-sensitively AFTER trimming the
value. -/
def presentValSpecTrimmed (val : String) : Bool :=
  jsTrim val ≠ "" ∧ jsTrim val ≠ "Unknown" ∧ jsTrim val ≠ "N/A"

/-- A record whose author name is `" Unknown "` (whitespace-padded). -/
def paddedUnknownRec : BibEntry := ⟨" Unknown ", "", "", none, "", "", []⟩

/-- Author-only dimension selection. -/
def cfgAuthorOnly : NetworkConfig := ⟨["authorName"], true, allEdgeTypesList⟩

/-- Counterexample to C6 as stated: the value `" Unknown "` trims to
`"Unknown"`, so under the claimed filter (sentinels compared after
trimming) it is absent and creates no node; but the builder compares the
sentinels against the untrimmed value, so it creates a node. -/
theorem claim_C6_counterexample :
    presentValSpecTrimmed " Unknown " = false ∧
    presentVal " Unknown " = true ∧
    (buildGraphState [paddedUnknownRec] cfgAuthorOnly).nodes.length = 1 := by
  refine ⟨by decide, by decide, by decide⟩

/-- C6 (amended): the built node set is exactly the set of distinct
`(dimension, value)` pairs — identified by their id string
`` `${dim}:${value}` `` — whose value passes the builder's absence filter,
in which `"Unknown"`/`"N/A"` are compared against the untrimmed value and
only the emptiness check uses the trimmed value; when the active
dimensions are built-in keys, node ids are in bijection with the
`(dimension, value)` pairs themselves, so there are no duplicates and no
merges across dimensions. -/
theorem claim_C6_node_identity (records : List BibEntry) (cfg : NetworkConfig) :
    (((buildGraphState records cfg).nodes.map NodeEntry.id).Nodup ∧
     ∀ x, x ∈ (buildGraphState records cfg).nodes.map NodeEntry.id ↔
       x ∈ mentionIdsOf records cfg) ∧
    ((∀ d ∈ cfg.selectedNodeAttrs, d ∈ builtinAttrKeys) →
      ((buildGraphState records cfg).nodes.map (fun n => (n.group, n.name))).Nodup ∧
      (∀ pr, pr ∈ (buildGraphState records cfg).nodes.map (fun n => (n.group, n.name)) ↔
        pr ∈ mentionPairsOf records cfg) ∧
      (buildGraphState records cfg).nodes.length =
        (mentionPairsOf records cfg).toFinset.card) := by
  have hinv := build_nodes_invariant cfg records ⟨[], []⟩
    (by simp) (fun n hn => by simp at hn)
  rcases hinv with ⟨h1, h2, h3⟩
  have hids : ∀ x, x ∈ (buildGraphState records cfg).nodes.map NodeEntry.id ↔
      x ∈ mentionIdsOf records cfg := by
    intro x
    have := h3 x
    unfold buildGraphState
    rw [this]
    simp
  have h1' : ((buildGraphState records cfg).nodes.map NodeEntry.id).Nodup := h1
  refine ⟨⟨h1', hids⟩, fun hbuiltin => ?_⟩
  have hwf : NodesWF cfg (buildGraphState records cfg).nodes := h2
  have hnodesNodup : (buildGraphState records cfg).nodes.Nodup := h1'.of_map
  -- membership of `(group, name)` pairs
  have hpairmem : ∀ pr,
      pr ∈ (buildGraphState records cfg).nodes.map (fun n => (n.group, n.name)) ↔
        pr ∈ mentionPairsOf records cfg := by
    intro pr
    constructor
    · intro hpr
      rcases List.mem_map.1 hpr with ⟨n, hn, rfl⟩
      rcases hwf n hn with ⟨hid, hgrp⟩
      have hx : n.id ∈ mentionIdsOf records cfg :=
        (hids n.id).1 (List.mem_map.2 ⟨n, hn, rfl⟩)
      simp only [mentionIdsOf, List.mem_flatten, List.mem_map] at hx
      rcases hx with ⟨inner, ⟨e, he, rfl⟩, hm⟩
      rcases List.mem_map.1 hm with ⟨m, hme, hmid⟩
      rcases mentionsOf_mem hme with ⟨hmid', hmdim⟩
      have heq : mkId m.dim m.name = mkId n.group n.name := by
        rw [← hmid', hmid, hid]
      rcases mkId_inj (builtin_noColon (hbuiltin _ hmdim))
        (builtin_noColon (hbuiltin _ hgrp)) heq with ⟨hdim, hname⟩
      simp only [mentionPairsOf, List.mem_flatten, List.mem_map]
      exact ⟨(mentionsOf cfg e).map (fun m => (m.dim, m.name)), ⟨e, he, rfl⟩,
        List.mem_map.2 ⟨m, hme, by rw [hdim, hname]⟩⟩
    · intro hpr
      simp only [mentionPairsOf, List.mem_flatten, List.mem_map] at hpr
      rcases hpr with ⟨inner, ⟨e, he, rfl⟩, hm⟩
      rcases List.mem_map.1 hm with ⟨m, hme, hmpr⟩
      rcases mentionsOf_mem hme with ⟨hmid', hmdim⟩
      have hx : m.id ∈ (buildGraphState records cfg).nodes.map NodeEntry.id := by
        rw [hids m.id]
        simp only [mentionIdsOf, List.mem_flatten, List.mem_map]
        exact ⟨(mentionsOf cfg e).map Mention.id, ⟨e, he, rfl⟩,
          List.mem_map.2 ⟨m, hme, rfl⟩⟩
      rcases List.mem_map.1 hx with ⟨n, hn, hnid⟩
      rcases hwf n hn with ⟨hid, hgrp⟩
      have heq : mkId n.group n.name = mkId m.dim m.name := by
        rw [← hid, hnid, hmid']
      rcases mkId_inj (builtin_noColon (hbuiltin _ hgrp))
        (builtin_noColon (hbuiltin _ hmdim)) heq with ⟨hdim, hname⟩
      rw [← hmpr]
      exact List.mem_map.2 ⟨n, hn, by rw [hdim, hname]⟩
  have hinjon : ∀ x ∈ (buildGraphState records cfg).nodes,
      ∀ y ∈ (buildGraphState records cfg).nodes,
      NodeEntry.id x = NodeEntry.id y → x = y :=
    List.inj_on_of_nodup_map h1'
  have hpairnodup :
      ((buildGraphState records cfg).nodes.map (fun n => (n.group, n.name))).Nodup := by
    refine List.Nodup.map_on ?_ hnodesNodup
    intro x hx y hy hxy
    rcases hwf x hx with ⟨hidx, _⟩
    rcases hwf y hy with ⟨hidy, _⟩
    refine hinjon x hx y hy ?_
    rw [hidx, hidy]
    have hg : x.group = y.group := congrArg Prod.fst hxy
    have hn : x.name = y.name := congrArg Prod.snd hxy
    rw [hg, hn]
  refine ⟨hpairnodup, hpairmem, ?_⟩
  have hfin : ((buildGraphState records cfg).nodes.map
      (fun n => (n.group, n.name))).toFinset = (mentionPairsOf records cfg).toFinset := by
    ext pr
    rw [List.mem_toFinset, List.mem_toFinset, hpairmem pr]
  calc (buildGraphState records cfg).nodes.length
      = ((buildGraphState records cfg).nodes.map
          (fun n => (n.group, n.name))).length := (List.length_map _ _).symm
    _ = ((buildGraphState records cfg).nodes.map
          (fun n => (n.group, n.name))).toFinset.card :=
        (List.toFinset_card_of_nodup hpairnodup).symm
    _ = (mentionPairsOf records cfg).toFinset.card := by rw [hfin]

/-- Witness for the amended C6 at a concrete input: two scenario-1 records
over built-in dimensions yield exactly 4 nodes, matching the 4 distinct
`(dimension, value)` pairs. -/
theorem claim_C6_node_identity_witness :
    (∀ d ∈ cfgUndirATP.selectedNodeAttrs, d ∈ builtinAttrKeys) ∧
    (buildGraphState [sampleRec, sampleRec2] cfgUndirATP).nodes.length =
      (mentionPairsOf [sampleRec, sampleRec2] cfgUndirATP).toFinset.card :=
  ⟨by decide,
   ((claim_C6_node_identity [sampleRec, sampleRec2] cfgUndirATP).2 (by decide)).2.2⟩

/-! ## Claim C8: graph-level statistics -/

lemma allPairs_mem {α : Type} {l : List α} {xy : α × α} (h : xy ∈ allPairs l) :
    xy.1 ∈ l ∧ xy.2 ∈ l := by
  induction l with
  | nil => simp [allPairs] at h
  | cons x xs ih =>
    simp only [allPairs] at h
    rcases List.mem_append.1 h with hm | hm
    · rcases List.mem_map.1 hm with ⟨y, hy, rfl⟩
      exact ⟨List.mem_cons_self x xs, List.mem_cons_of_mem x hy⟩
    · rcases ih hm with ⟨ha, hb⟩
      exact ⟨List.mem_cons_of_mem x ha, List.mem_cons_of_mem x hb⟩

/-- Every stored link key is `linkKey` of two distinct node ids. -/
def KeysOk (directed : Bool) (ids : List String) (ks : List String) : Prop :=
  ∀ k ∈ ks, ∃ s t, s ∈ ids ∧ t ∈ ids ∧ s ≠ t ∧ k = linkKey directed s t

lemma KeysOk_mono {directed : Bool} {ids ids' ks : List String}
    (hsub : ∀ x ∈ ids, x ∈ ids') (h : KeysOk directed ids ks) :
    KeysOk directed ids' ks := by
  intro k hk
  rcases h k hk with ⟨s, t, hs, ht, hne, heq⟩
  exact ⟨s, t, hsub s hs, hsub t ht, hne, heq⟩

lemma keys_nodup_bumpLink {ls : List (String × LinkInfo)} {k : String}
    (ty : EdgeType) (h : (ls.map Prod.fst).Nodup) :
    ((bumpLink ls k ty).map Prod.fst).Nodup := by
  by_cases hm : k ∈ ls.map Prod.fst
  · rw [keys_bumpLink_of_mem ty hm]; exact h
  · rw [keys_bumpLink_of_not_mem ty hm]
    simp [List.nodup_append, h, hm]

lemma KeysOk_bumpLink {directed : Bool} {ids : List String}
    {ls : List (String × LinkInfo)} {s t : String} (ty : EdgeType)
    (h : KeysOk directed ids (ls.map Prod.fst)) (hs : s ∈ ids) (ht : t ∈ ids)
    (hne : s ≠ t) :
    KeysOk directed ids ((bumpLink ls (linkKey directed s t) ty).map Prod.fst) := by
  by_cases hm : linkKey directed s t ∈ ls.map Prod.fst
  · rw [keys_bumpLink_of_mem ty hm]; exact h
  · rw [keys_bumpLink_of_not_mem ty hm]
    intro k' hk'
    rcases List.mem_append.1 hk' with h' | h'
    · exact h k' h'
    · simp at h'
      subst h'
      exact ⟨s, t, hs, ht, hne, rfl⟩

lemma keys_pairsFold (cfg : NetworkConfig) (ids : List String)
    (pairs : List (Mention × Mention))
    (hpairs : ∀ mm ∈ pairs, mm.1.id ∈ ids ∧ mm.2.id ∈ ids) :
    ∀ acc, KeysOk cfg.isDirected ids (acc.map Prod.fst) →
      (acc.map Prod.fst).Nodup →
      (KeysOk cfg.isDirected ids
        ((pairs.foldl (fun acc (mm : Mention × Mention) =>
          let ty := determineEdgeType mm.1.dim mm.2.dim
          if ty ∈ cfg.enabledEdgeTypes then
            if mm.1.id = mm.2.id then acc
            else bumpLink acc (linkKey cfg.isDirected mm.1.id mm.2.id) ty
          else acc) acc).map Prod.fst) ∧
       ((pairs.foldl (fun acc (mm : Mention × Mention) =>
          let ty := determineEdgeType mm.1.dim mm.2.dim
          if ty ∈ cfg.enabledEdgeTypes then
            if mm.1.id = mm.2.id then acc
            else bumpLink acc (linkKey cfg.isDirected mm.1.id mm.2.id) ty
          else acc) acc).map Prod.fst).Nodup) := by
  induction pairs with
  | nil => exact fun acc h1 h2 => ⟨h1, h2⟩
  | cons mm rest ih =>
    intro acc h1 h2
    simp only [List.foldl_cons]
    have hmm := hpairs mm (List.mem_cons_self mm rest)
    have hrest : ∀ xy ∈ rest, xy.1.id ∈ ids ∧ xy.2.id ∈ ids :=
      fun xy hxy => hpairs xy (List.mem_cons_of_mem mm hxy)
    refine ih hrest _ ?_ ?_
    · by_cases he : determineEdgeType mm.1.dim mm.2.dim ∈ cfg.enabledEdgeTypes <;>
        by_cases hid : mm.1.id = mm.2.id <;>
        simp only [he, hid, if_pos, if_neg, if_true, if_false]
      any_goals exact h1
      exact KeysOk_bumpLink _ h1 hmm.1 hmm.2 hid
    · by_cases he : determineEdgeType mm.1.dim mm.2.dim ∈ cfg.enabledEdgeTypes <;>
        by_cases hid : mm.1.id = mm.2.id <;>
        simp only [he, hid, if_pos, if_neg, if_true, if_false]
      any_goals exact h2
      exact keys_nodup_bumpLink _ h2

lemma build_keys_invariant (cfg : NetworkConfig) :
    ∀ (records : List BibEntry) (st : BuildState),
      (st.nodes.map NodeEntry.id).Nodup → NodesWF cfg st.nodes →
      KeysOk cfg.isDirected (st.nodes.map NodeEntry.id) (st.links.map Prod.fst) →
      (st.links.map Prod.fst).Nodup →
      (KeysOk cfg.isDirected
        ((records.foldl (processEntry cfg) st).nodes.map NodeEntry.id)
        ((records.foldl (processEntry cfg) st).links.map Prod.fst) ∧
       ((records.foldl (processEntry cfg) st).links.map Prod.fst).Nodup) := by
  intro records
  induction records with
  | nil => exact fun st _ _ h3 h4 => ⟨h3, h4⟩
  | cons r rest ih =>
    intro st h1 h2 h3 h4
    simp only [List.foldl_cons]
    have hfold := foldl_insertNode_props cfg r (mentionsOf cfg r)
      (fun m hm => hm) st.nodes h1 h2
    rw [← processEntry_nodes] at hfold
    rcases hfold with ⟨g1, g2, g3⟩
    have hsub : ∀ x ∈ st.nodes.map NodeEntry.id,
        x ∈ (processEntry cfg st r).nodes.map NodeEntry.id :=
      fun x hx => (g3 x).2 (Or.inl hx)
    have hmentions : ∀ mm ∈ allPairs (mentionsOf cfg r),
        mm.1.id ∈ (processEntry cfg st r).nodes.map NodeEntry.id ∧
        mm.2.id ∈ (processEntry cfg st r).nodes.map NodeEntry.id := by
      intro mm hmm
      rcases allPairs_mem hmm with ⟨ha, hb⟩
      exact ⟨(g3 _).2 (Or.inr (List.mem_map.2 ⟨mm.1, ha, rfl⟩)),
             (g3 _).2 (Or.inr (List.mem_map.2 ⟨mm.2, hb, rfl⟩))⟩
    have hlinks := keys_pairsFold cfg
      ((processEntry cfg st r).nodes.map NodeEntry.id)
      (allPairs (mentionsOf cfg r)) hmentions st.links
      (KeysOk_mono hsub h3) h4
    exact ih (processEntry cfg st r) g1 g2 hlinks.1 hlinks.2

/-- `n * n - n = n * (n - 1)` over `ℕ`. -/
lemma nat_sq_sub (n : Nat) : n * n - n = n * (n - 1) := by
  cases n with
  | zero => simp
  | succ m =>
    rw [Nat.succ_sub_one, show (m + 1) * (m + 1) = (m + 1) * m + (m + 1) by ring,
      Nat.add_sub_cancel]

lemma edge_bound_directed {ids ks : List String}
    (hK : KeysOk true ids ks) (hnd : ks.Nodup) :
    ks.length ≤ ids.length * (ids.length - 1) := by
  have hsub : ks.toFinset ⊆
      (ids.toFinset.offDiag).image (fun st => linkKey true st.1 st.2) := by
    intro k hk
    rcases hK k (List.mem_toFinset.1 hk) with ⟨s, t, hs, ht, hne, heq⟩
    exact Finset.mem_image.2 ⟨(s, t),
      Finset.mem_offDiag.2 ⟨List.mem_toFinset.2 hs, List.mem_toFinset.2 ht, hne⟩,
      heq.symm⟩
  calc ks.length = ks.toFinset.card := (List.toFinset_card_of_nodup hnd).symm
    _ ≤ ((ids.toFinset.offDiag).image (fun st => linkKey true st.1 st.2)).card :=
        Finset.card_le_card hsub
    _ ≤ (ids.toFinset.offDiag).card := Finset.card_image_le
    _ = ids.toFinset.card * ids.toFinset.card - ids.toFinset.card :=
        Finset.offDiag_card _
    _ = ids.toFinset.card * (ids.toFinset.card - 1) := nat_sq_sub _
    _ ≤ ids.length * (ids.length - 1) := by
        have := ids.toFinset_card_le
        exact Nat.mul_le_mul this (Nat.sub_le_sub_right this 1)

lemma jsLtChars_asymm : ∀ {as bs : List Char},
    jsLtChars as bs = true → jsLtChars bs as = false := by
  intro as
  induction as with
  | nil =>
    intro bs h
    cases bs with
    | nil => simpa [jsLtChars] using h
    | cons b bs => simp [jsLtChars]
  | cons a as ih =>
    intro bs h
    cases bs with
    | nil => simp [jsLtChars] at h
    | cons b bs =>
      simp only [jsLtChars] at h ⊢
      by_cases hab : a = b
      · rw [if_pos hab] at h
        rw [if_pos hab.symm]
        exact ih h
      · rw [if_neg hab] at h
        rw [if_neg (Ne.symm hab)]
        simp only [decide_eq_true_eq] at h
        simp [not_lt_of_gt h]

lemma jsLtChars_total : ∀ {as bs : List Char}, as ≠ bs →
    jsLtChars as bs = true ∨ jsLtChars bs as = true := by
  intro as
  induction as with
  | nil =>
    intro bs h
    cases bs with
    | nil => exact absurd rfl h
    | cons b bs => left; simp [jsLtChars]
  | cons a as ih =>
    intro bs h
    cases bs with
    | nil => right; simp [jsLtChars]
    | cons b bs =>
      by_cases hab : a = b
      · subst hab
        have : as ≠ bs := fun hc => h (by rw [hc])
        rcases ih this with h1 | h1
        · left; simp [jsLtChars, h1]
        · right; simp [jsLtChars, h1]
      · rcases lt_or_gt_of_ne hab with hlt | hgt
        · left; simp [jsLtChars, hab, hlt]
        · right; simp [jsLtChars, Ne.symm hab, hgt]

lemma jsLt_asymm {s t : String} (h : jsLt s t = true) : jsLt t s = false :=
  jsLtChars_asymm h

lemma jsLt_total {s t : String} (h : s ≠ t) :
    jsLt s t = true ∨ jsLt t s = true := by
  apply jsLtChars_total
  intro hc
  apply h
  cases s
  cases t
  exact congrArg String.mk hc

lemma edge_bound_undirected {ids ks : List String}
    (hK : KeysOk false ids ks) (hnd : ks.Nodup) :
    2 * ks.length ≤ ids.length * (ids.length - 1) := by
  classical
  set D := ids.toFinset.offDiag with hD
  set L := D.filter (fun st => jsLt st.1 st.2 = true) with hL
  have hsub : ks.toFinset ⊆ L.image (fun st => linkKey false st.1 st.2) := by
    intro k hk
    rcases hK k (List.mem_toFinset.1 hk) with ⟨s, t, hs, ht, hne, heq⟩
    rcases jsLt_total hne with hlt | hgt
    · refine Finset.mem_image.2 ⟨(s, t), ?_, ?_⟩
      · exact Finset.mem_filter.2 ⟨Finset.mem_offDiag.2
          ⟨List.mem_toFinset.2 hs, List.mem_toFinset.2 ht, hne⟩, hlt⟩
      · rw [heq]
    · refine Finset.mem_image.2 ⟨(t, s), ?_, ?_⟩
      · exact Finset.mem_filter.2 ⟨Finset.mem_offDiag.2
          ⟨List.mem_toFinset.2 ht, List.mem_toFinset.2 hs, hne.symm⟩, hgt⟩
      · rw [heq]
        have h1 : jsLt s t = false := jsLt_asymm hgt
        simp [linkKey, h1, hgt]
  have hswap : L.card = (D.filter (fun st => ¬ jsLt st.1 st.2 = true)).card := by
    apply Finset.card_bij' (fun (st : String × String) _ => (st.2, st.1))
      (fun (st : String × String) _ => (st.2, st.1))
    · intro a ha
      rcases Finset.mem_filter.1 ha with ⟨hd, hlt⟩
      rcases Finset.mem_offDiag.1 hd with ⟨h1, h2, h3⟩
      refine Finset.mem_filter.2 ⟨Finset.mem_offDiag.2 ⟨h2, h1, h3.symm⟩, ?_⟩
      simp [jsLt_asymm hlt]
    · intro a ha
      rcases Finset.mem_filter.1 ha with ⟨hd, hlt⟩
      rcases Finset.mem_offDiag.1 hd with ⟨h1, h2, h3⟩
      refine Finset.mem_filter.2 ⟨Finset.mem_offDiag.2 ⟨h2, h1, h3.symm⟩, ?_⟩
      rcases jsLt_total h3 with hc | hc
      · exact absurd hc hlt
      · exact hc
    · intro a _; rfl
    · intro a _; rfl
  have htotal : L.card + (D.filter (fun st => ¬ jsLt st.1 st.2 = true)).card = D.card :=
    Finset.filter_card_add_filter_neg_card_eq_card _
  have hLcard : 2 * L.card = D.card := by
    omega
  have hkL : ks.length ≤ L.card := by
    calc ks.length = ks.toFinset.card := (List.toFinset_card_of_nodup hnd).symm
      _ ≤ (L.image (fun st => linkKey false st.1 st.2)).card :=
          Finset.card_le_card hsub
      _ ≤ L.card := Finset.card_image_le
  have hDcard : D.card ≤ ids.length * (ids.length - 1) := by
    rw [hD, Finset.offDiag_card, nat_sq_sub]
    have := ids.toFinset_card_le
    exact Nat.mul_le_mul this (Nat.sub_le_sub_right this 1)
  omega

lemma density_bounds_aux {a n : ℕ} (hn : 2 ≤ n) (hbound : a ≤ n * (n - 1)) :
    0 ≤ (a : ℚ) / ((n : ℚ) * ((n : ℚ) - 1)) ∧
      (a : ℚ) / ((n : ℚ) * ((n : ℚ) - 1)) ≤ 1 := by
  have h2 : (2 : ℚ) ≤ (n : ℚ) := by exact_mod_cast hn
  have hpos : 0 < (n : ℚ) * ((n : ℚ) - 1) := by nlinarith
  constructor
  · exact div_nonneg (by positivity) hpos.le
  · rw [div_le_one hpos]
    calc (a : ℚ) ≤ ((n * (n - 1) : ℕ) : ℚ) := by exact_mod_cast hbound
      _ = (n : ℚ) * ((n : ℚ) - 1) := by
          rw [Nat.cast_mul, Nat.cast_sub (by omega : 1 ≤ n)]
          norm_num

/-- C8: `density = edgeCount/(n·(n−1))` in directed mode and
`2·edgeCount/(n·(n−1))` in undirected mode, with `density = 0` when
`n < 2`; `avgDegree = 2·edgeCount/n` regardless of mode, 0 when `n = 0`;
and every graph built by the builder with `n ≥ 2` has
`0 ≤ density ≤ 1`. -/
theorem claim_C8_global_stats (records : List BibEntry) (cfg : NetworkConfig) :
    (¬ 1 < (buildGraphState records cfg).nodes.length →
      (globalMetricsOf cfg.isDirected (buildGraphState records cfg)).density = 0) ∧
    (cfg.isDirected = true → 1 < (buildGraphState records cfg).nodes.length →
      (globalMetricsOf cfg.isDirected (buildGraphState records cfg)).density =
        ((globalMetricsOf cfg.isDirected (buildGraphState records cfg)).edgeCount : ℚ) /
          (((buildGraphState records cfg).nodes.length : ℚ) *
           (((buildGraphState records cfg).nodes.length : ℚ) - 1))) ∧
    (cfg.isDirected = false → 1 < (buildGraphState records cfg).nodes.length →
      (globalMetricsOf cfg.isDirected (buildGraphState records cfg)).density =
        2 * ((globalMetricsOf cfg.isDirected (buildGraphState records cfg)).edgeCount : ℚ) /
          (((buildGraphState records cfg).nodes.length : ℚ) *
           (((buildGraphState records cfg).nodes.length : ℚ) - 1))) ∧
    ((buildGraphState records cfg).nodes.length = 0 →
      (globalMetricsOf cfg.isDirected (buildGraphState records cfg)).avgDegree = 0) ∧
    (0 < (buildGraphState records cfg).nodes.length →
      (globalMetricsOf cfg.isDirected (buildGraphState records cfg)).avgDegree =
        2 * ((globalMetricsOf cfg.isDirected (buildGraphState records cfg)).edgeCount : ℚ) /
          ((buildGraphState records cfg).nodes.length : ℚ)) ∧
    (2 ≤ (buildGraphState records cfg).nodes.length →
      0 ≤ (globalMetricsOf cfg.isDirected (buildGraphState records cfg)).density ∧
      (globalMetricsOf cfg.isDirected (buildGraphState records cfg)).density ≤ 1) := by
  refine ⟨?_, ?_, ?_, ?_, ?_, ?_⟩
  · intro h
    simp [globalMetricsOf, h]
  · intro hd h
    simp [globalMetricsOf, h, hd, mul_comm]
  · intro hd h
    simp [globalMetricsOf, h, hd, mul_comm]
  · intro h
    simp [globalMetricsOf, h]
  · intro h
    simp [globalMetricsOf, h, mul_comm]
  · intro hn
    have h1lt : 1 < (buildGraphState records cfg).nodes.length := by omega
    have hkeys := build_keys_invariant cfg records ⟨[], []⟩
      (by simp) (fun n hn => by simp at hn)
      (fun k hk => by simp at hk) (by simp)
    have hK : KeysOk cfg.isDirected
        ((buildGraphState records cfg).nodes.map NodeEntry.id)
        ((buildGraphState records cfg).links.map Prod.fst) := hkeys.1
    have hKnd : ((buildGraphState records cfg).links.map Prod.fst).Nodup := hkeys.2
    have hkslen : ((buildGraphState records cfg).links.map Prod.fst).length =
        (buildGraphState records cfg).links.length := List.length_map _ _
    have hidlen : ((buildGraphState records cfg).nodes.map NodeEntry.id).length =
        (buildGraphState records cfg).nodes.length := List.length_map _ _
    have helen : (globalMetricsOf cfg.isDirected (buildGraphState records cfg)).edgeCount =
        (buildGraphState records cfg).links.length := by
      simp [globalMetricsOf, linkListOf]
    cases hdir : cfg.isDirected with
    | true =>
      have hb := edge_bound_directed (hdir ▸ hK) hKnd
      rw [hkslen, hidlen] at hb
      have haux := density_bounds_aux hn hb
      have hd : (globalMetricsOf true (buildGraphState records cfg)).density =
          ((buildGraphState records cfg).links.length : ℚ) /
            (((buildGraphState records cfg).nodes.length : ℚ) *
             (((buildGraphState records cfg).nodes.length : ℚ) - 1)) := by
        simp [globalMetricsOf, h1lt, linkListOf]
      rw [hd]
      exact haux
    | false =>
      have hb := edge_bound_undirected (hdir ▸ hK) hKnd
      rw [hkslen, hidlen] at hb
      have haux := density_bounds_aux hn hb
      have hcast : ((2 * (buildGraphState records cfg).links.length : ℕ) : ℚ) =
          2 * ((buildGraphState records cfg).links.length : ℚ) := by push_cast; ring
      rw [hcast] at haux
      have hd : (globalMetricsOf false (buildGraphState records cfg)).density =
          2 * ((buildGraphState records cfg).links.length : ℚ) /
            (((buildGraphState records cfg).nodes.length : ℚ) *
             (((buildGraphState records cfg).nodes.length : ℚ) - 1)) := by
        simp [globalMetricsOf, h1lt, linkListOf]
      rw [hd]
      exact haux

/-- Witness for C8 at a concrete input: scenario 1's two records in
undirected mode give 4 nodes and 5 edges, and the density lies in
`[0, 1]`. -/
theorem claim_C8_global_stats_witness :
    2 ≤ (buildGraphState [sampleRec, sampleRec2] cfgUndirATP).nodes.length ∧
    (0 ≤ (globalMetricsOf cfgUndirATP.isDirected
        (buildGraphState [sampleRec, sampleRec2] cfgUndirATP)).density ∧
     (globalMetricsOf cfgUndirATP.isDirected
        (buildGraphState [sampleRec, sampleRec2] cfgUndirATP)).density ≤ 1) :=
  ⟨by decide,
   (claim_C8_global_stats [sampleRec, sampleRec2] cfgUndirATP).2.2.2.2.2 (by decide)⟩

/-! ## Claim C9: empty and degenerate graphs -/

lemma mentionsOf_empty_attrs {cfg : NetworkConfig} (h : cfg.selectedNodeAttrs = [])
    (e : BibEntry) : mentionsOf cfg e = [] := by
  unfold mentionsOf
  rw [h]
  rfl

lemma processEntry_empty_attrs {cfg : NetworkConfig} (h : cfg.selectedNodeAttrs = [])
    (st : BuildState) (e : BibEntry) : processEntry cfg st e = st := by
  unfold processEntry
  rw [mentionsOf_empty_attrs h]
  rfl

lemma mem_of_length_le_one {l : List String} (h : l.length ≤ 1)
    {a b : String} (ha : a ∈ l) (hb : b ∈ l) : a = b := by
  match l, h with
  | [], _ => exact absurd ha (List.not_mem_nil a)
  | [x], _ =>
    rw [List.mem_singleton.1 ha, List.mem_singleton.1 hb]

lemma closenessOf_empty_adj (adj : Adj) (s : String)
    (h : ∀ p ∈ adj, p.2 = []) : closenessOf adj s = 0 := by
  have hget : adjGet adj s = [] := by
    unfold adjGet
    cases hf : adj.find? (fun p => p.1 == s) with
    | none => rfl
    | some p => exact h p (List.mem_of_find?_eq_some hf)
  obtain ⟨j, hj⟩ : ∃ j, (s :: (adj.map Prod.snd).flatten).toFinset.card = j + 1 := by
    have hpos : 0 < (s :: (adj.map Prod.snd).flatten).toFinset.card :=
      Finset.card_pos.2 ⟨s, by simp⟩
    exact ⟨(s :: (adj.map Prod.snd).flatten).toFinset.card - 1, by omega⟩
  unfold closenessOf bfsRun bfsFuel
  rw [hj]
  simp [bfsLoop, hget, visitNbrs]

/-- C9: an empty record set or an empty dimension selection yields a valid
empty graph (no error), and on 0-or-1-node built graphs the edge list is
empty and density, avgDegree and every closeness value resolve to 0 (all
divisions guarded). -/
theorem claim_C9_degenerate_graphs (records : List BibEntry) (cfg : NetworkConfig) :
    (buildGraphState [] cfg = ⟨[], []⟩) ∧
    (cfg.selectedNodeAttrs = [] → buildGraphState records cfg = ⟨[], []⟩) ∧
    ((buildGraphState records cfg).nodes.length ≤ 1 →
      (buildGraphState records cfg).links = [] ∧
      (globalMetricsOf cfg.isDirected (buildGraphState records cfg)).density = 0 ∧
      (globalMetricsOf cfg.isDirected (buildGraphState records cfg)).avgDegree = 0 ∧
      (∀ s, closenessOf
        (adjacencyOf ((buildGraphState records cfg).nodes.map NodeEntry.id)
          (linkListOf cfg.isDirected (buildGraphState records cfg).links)
          cfg.isDirected) s = 0)) := by
  refine ⟨rfl, ?_, ?_⟩
  · intro h
    unfold buildGraphState
    induction records with
    | nil => rfl
    | cons r rest ih =>
      simp only [List.foldl_cons]
      rw [processEntry_empty_attrs h]
      exact ih
  · intro hn
    have hkeys := build_keys_invariant cfg records ⟨[], []⟩
      (by simp) (fun n hn => by simp at hn)
      (fun k hk => by simp at hk) (by simp)
    have hK : KeysOk cfg.isDirected
        ((buildGraphState records cfg).nodes.map NodeEntry.id)
        ((buildGraphState records cfg).links.map Prod.fst) := hkeys.1
    have hidlen : ((buildGraphState records cfg).nodes.map NodeEntry.id).length ≤ 1 := by
      rw [List.length_map]
      exact hn
    have hlinks : (buildGraphState records cfg).links = [] := by
      cases hls : (buildGraphState records cfg).links with
      | nil => rfl
      | cons p rest =>
        exfalso
        have hk : p.1 ∈ (buildGraphState records cfg).links.map Prod.fst := by
          rw [hls]; simp
        rcases hK p.1 hk with ⟨s, t, hs, ht, hne, _⟩
        exact hne (mem_of_length_le_one hidlen hs ht)
    have hnot : ¬ 1 < (buildGraphState records cfg).nodes.length := by omega
    refine ⟨hlinks, by simp [globalMetricsOf, hnot], ?_, ?_⟩
    · simp [globalMetricsOf, hlinks, linkListOf]
    · intro s
      apply closenessOf_empty_adj
      intro p hp
      unfold adjacencyOf at hp
      rw [hlinks] at hp
      simp only [linkListOf, List.map_nil, List.foldl_nil] at hp
      rcases List.mem_map.1 hp with ⟨i, _, rfl⟩
      rfl

/-- Witness for C9 at a concrete input: a single record projected on the
author dimension alone yields a 1-node, 0-edge graph with density and
average degree 0. -/
theorem claim_C9_degenerate_graphs_witness :
    (buildGraphState [sampleRec] cfgAuthorOnly).nodes.length ≤ 1 ∧
    (buildGraphState [sampleRec] cfgAuthorOnly).links = [] ∧
    (globalMetricsOf cfgAuthorOnly.isDirected
      (buildGraphState [sampleRec] cfgAuthorOnly)).density = 0 ∧
    (globalMetricsOf cfgAuthorOnly.isDirected
      (buildGraphState [sampleRec] cfgAuthorOnly)).avgDegree = 0 := by
  have h := (claim_C9_degenerate_graphs [sampleRec] cfgAuthorOnly).2.2 (by decide)
  exact ⟨by decide, h.1, h.2.1, h.2.2.1⟩

/-! ## Claim C3: degree, in-degree, out-degree -/

set_option maxHeartbeats 1000000 in
lemma degreesOf_fold (ids : List String) :
    ∀ (links : List GraphLink) (f g h : String → Nat) (x : String),
      ((links.foldl (fun acc l =>
          if l.source ∈ ids ∧ l.target ∈ ids then
            (bumpNat (bumpNat acc.1 l.source) l.target,
             bumpNat acc.2.1 l.source,
             bumpNat acc.2.2 l.target)
          else acc) (f, g, h)).1 x =
        f x +
          links.countP (fun l => decide ((l.source ∈ ids ∧ l.target ∈ ids) ∧ l.source = x)) +
          links.countP (fun l => decide ((l.source ∈ ids ∧ l.target ∈ ids) ∧ l.target = x))) ∧
      ((links.foldl (fun acc l =>
          if l.source ∈ ids ∧ l.target ∈ ids then
            (bumpNat (bumpNat acc.1 l.source) l.target,
             bumpNat acc.2.1 l.source,
             bumpNat acc.2.2 l.target)
          else acc) (f, g, h)).2.1 x =
        g x +
          links.countP (fun l => decide ((l.source ∈ ids ∧ l.target ∈ ids) ∧ l.source = x))) ∧
      ((links.foldl (fun acc l =>
          if l.source ∈ ids ∧ l.target ∈ ids then
            (bumpNat (bumpNat acc.1 l.source) l.target,
             bumpNat acc.2.1 l.source,
             bumpNat acc.2.2 l.target)
          else acc) (f, g, h)).2.2 x =
        h x +
          links.countP (fun l => decide ((l.source ∈ ids ∧ l.target ∈ ids) ∧ l.target = x))) := by
  intro links
  induction links with
  | nil => intro f g h x; simp
  | cons l rest ih =>
    intro f g h x
    simp only [List.foldl_cons, List.countP_cons]
    by_cases hg : l.source ∈ ids ∧ l.target ∈ ids
    · rw [if_pos hg]
      rcases ih (bumpNat (bumpNat f l.source) l.target) (bumpNat g l.source)
        (bumpNat h l.target) x with ⟨ih1, ih2, ih3⟩
      refine ⟨?_, ?_, ?_⟩
      · rw [ih1]
        clear ih2 ih3
        simp only [bumpNat]
        split_ifs <;> simp_all <;> omega
      · rw [ih2]
        clear ih1 ih3
        simp only [bumpNat]
        split_ifs <;> simp_all <;> omega
      · rw [ih3]
        clear ih1 ih2
        simp only [bumpNat]
        split_ifs <;> simp_all <;> omega
    · rw [if_neg hg]
      rcases ih f g h x with ⟨ih1, ih2, ih3⟩
      refine ⟨?_, ?_, ?_⟩
      · rw [ih1]; simp [hg]
      · rw [ih2]; simp [hg]
      · rw [ih3]; simp [hg]

/-- C3 (amended): in BOTH directed and undirected mode, `outDegree[n]`
counts the links whose STORED source is `n` (for undirected built graphs
the canonically ordered smaller endpoint), `inDegree[n]` counts the links
whose stored target is `n` (in each case subject to both endpoints being
found in the node list), and `degree[n] = outDegree[n] + inDegree[n]` —
per distinct link, never weighted. -/
theorem claim_C3_degree_decomposition (ids : List String)
    (links : List GraphLink) (x : String) :
    ((degreesOf ids links).2.1 x =
      links.countP (fun l => decide ((l.source ∈ ids ∧ l.target ∈ ids) ∧ l.source = x))) ∧
    ((degreesOf ids links).2.2 x =
      links.countP (fun l => decide ((l.source ∈ ids ∧ l.target ∈ ids) ∧ l.target = x))) ∧
    ((degreesOf ids links).1 x = (degreesOf ids links).2.1 x + (degreesOf ids links).2.2 x) := by
  rcases degreesOf_fold ids links (fun _ => 0) (fun _ => 0) (fun _ => 0) x with ⟨h1, h2, h3⟩
  unfold degreesOf
  refine ⟨by rw [h2]; simp, by rw [h3]; simp, by rw [h1, h2, h3]; simp⟩

/-- Author/translator dimensions, undirected. -/
def cfgUndirAT : NetworkConfig := ⟨["authorName", "translatorName"], false, allEdgeTypesList⟩

/-- Counterexample to C3 as stated: in undirected mode the claim says
`outDegree[n]` counts the edges with `n` as either endpoint and
`degree[n] = outDegree[n]`; but for the undirected one-record graph
A–B the stored (canonical) source of the single edge is `authorName:A`,
so the computed `outDegree` of `translatorName:B` is 0 although 1 edge
touches it, and `degree = outDegree + inDegree = 1 ≠ outDegree`. -/
theorem claim_C3_counterexample :
    cfgUndirAT.isDirected = false ∧
    (degreesOf
      ((buildGraphState [sampleRec] cfgUndirAT).nodes.map NodeEntry.id)
      (linkListOf cfgUndirAT.isDirected (buildGraphState [sampleRec] cfgUndirAT).links)).2.1
      "translatorName:B" = 0 ∧
    ((linkListOf cfgUndirAT.isDirected (buildGraphState [sampleRec] cfgUndirAT).links).countP
      (fun l => decide (l.source = "translatorName:B" ∨ l.target = "translatorName:B"))) = 1 ∧
    (degreesOf
      ((buildGraphState [sampleRec] cfgUndirAT).nodes.map NodeEntry.id)
      (linkListOf cfgUndirAT.isDirected (buildGraphState [sampleRec] cfgUndirAT).links)).1
      "translatorName:B" = 1 := by
  refine ⟨rfl, by decide, by decide, by decide⟩

/-! ## Claim C2: PageRank -/

lemma prSum_bumpQ {ids : List String} (hnd : ids.Nodup) {t : String}
    (ht : t ∈ ids) (f : String → ℚ) (δ : ℚ) :
    prSum ids (bumpQ f t δ) = prSum ids f + δ := by
  unfold prSum
  induction ids with
  | nil => simp at ht
  | cons x rest ih =>
    rcases List.nodup_cons.1 hnd with ⟨hx, hrest⟩
    rcases List.mem_cons.1 ht with rfl | hmem
    · have hconst : rest.map (bumpQ f t δ) = rest.map f := by
        refine List.map_congr_left (fun y hy => ?_)
        unfold bumpQ
        rw [if_neg]
        intro hc
        exact hx (hc ▸ hy)
      simp only [List.map_cons, List.sum_cons, hconst]
      unfold bumpQ
      rw [if_pos rfl]
      ring
    · have hxt : x ≠ t := fun hc => hx (hc ▸ hmem)
      simp only [List.map_cons, List.sum_cons]
      rw [ih hrest hmem]
      unfold bumpQ
      rw [if_neg hxt]
      ring

lemma prSum_bump_fold {ids : List String} (hnd : ids.Nodup) :
    ∀ (ts : List String), (∀ t ∈ ts, t ∈ ids) → ∀ (acc : String → ℚ) (δ : ℚ),
      prSum ids (ts.foldl (fun a t => bumpQ a t δ) acc) =
        prSum ids acc + ts.length * δ := by
  intro ts
  induction ts with
  | nil => intro _ acc δ; simp
  | cons t rest ih =>
    intro hmem acc δ
    simp only [List.foldl_cons, List.length_cons]
    rw [ih (fun x hx => hmem x (List.mem_cons_of_mem t hx)) (bumpQ acc t δ) δ,
      prSum_bumpQ hnd (hmem t (List.mem_cons_self t rest)) acc δ]
    push_cast
    ring

lemma sum_map_const (l : List String) (c : ℚ) :
    (l.map (fun _ => c)).sum = l.length * c := by
  induction l with
  | nil => simp
  | cons x rest ih =>
    simp only [List.map_cons, List.sum_cons, List.length_cons, ih]
    push_cast
    ring

lemma prSum_ite_const (ids : List String) (c : ℚ) :
    prSum ids (fun x => if x ∈ ids then c else 0) = ids.length * c := by
  unfold prSum
  have h : ids.map (fun x => if x ∈ ids then c else 0) = ids.map (fun _ => c) :=
    List.map_congr_left (fun x hx => if_pos hx)
  rw [h, sum_map_const]

lemma prRound_fold_sum {ids : List String} (adj : Adj) (hnd : ids.Nodup)
    (hne : ids ≠ []) (hadj : ∀ u, ∀ t ∈ adjGet adj u, t ∈ ids)
    (pr : String → ℚ) :
    ∀ (us : List String) (acc : String → ℚ),
      prSum ids (us.foldl (fun acc u =>
        if 0 < (adjGet adj u).length then
          (adjGet adj u).foldl
            (fun a t => bumpQ a t ((17/20) * pr u / ((adjGet adj u).length : ℚ))) acc
        else
          ids.foldl (fun a t => bumpQ a t ((17/20) * pr u / (ids.length : ℚ))) acc)
        acc) =
      prSum ids acc + (17/20) * (us.map pr).sum := by
  intro us
  induction us with
  | nil => intro acc; simp
  | cons u rest ih =>
    intro acc
    simp only [List.foldl_cons, List.map_cons, List.sum_cons]
    by_cases hout : 0 < (adjGet adj u).length
    · rw [if_pos hout]
      rw [ih _]
      rw [prSum_bump_fold hnd (adjGet adj u) (hadj u) acc _]
      have hcancel : ((adjGet adj u).length : ℚ) *
          ((17/20) * pr u / ((adjGet adj u).length : ℚ)) = (17/20) * pr u := by
        rw [mul_div_assoc']
        rw [mul_comm]
        rw [mul_div_assoc]
        rw [div_self (by exact_mod_cast Nat.pos_iff_ne_zero.1 hout), mul_one]
      rw [hcancel]
      ring
    · rw [if_neg hout]
      rw [ih _]
      rw [prSum_bump_fold hnd ids (fun t ht => ht) acc _]
      have hlen : ids.length ≠ 0 := fun hc => hne (List.length_eq_zero.1 hc)
      have hcancel : (ids.length : ℚ) *
          ((17/20) * pr u / (ids.length : ℚ)) = (17/20) * pr u := by
        rw [mul_div_assoc']
        rw [mul_comm]
        rw [mul_div_assoc]
        rw [div_self (by exact_mod_cast hlen), mul_one]
      rw [hcancel]
      ring

/-- Exact rank conservation of one round: the total rank over the node
list becomes `0.15 + 0.85 · (previous total)`. -/
lemma prRound_sum {ids : List String} (adj : Adj) (hnd : ids.Nodup)
    (hne : ids ≠ []) (hadj : ∀ u, ∀ t ∈ adjGet adj u, t ∈ ids)
    (pr : String → ℚ) :
    prSum ids (prRound ids adj pr) = 3/20 + (17/20) * prSum ids pr := by
  unfold prRound
  rw [prRound_fold_sum adj hnd hne hadj pr ids _]
  rw [prSum_ite_const ids ((3/20) / (ids.length : ℚ))]
  have hlen : (ids.length : ℚ) ≠ 0 := by
    have : ids.length ≠ 0 := fun hc => hne (List.length_eq_zero.1 hc)
    exact_mod_cast this
  rw [mul_div_assoc']
  rw [mul_comm (ids.length : ℚ) (3/20)]
  rw [mul_div_assoc, div_self hlen, mul_one]
  rfl

/-- The closed form of the total rank after `k` rounds from the initial
per-node rank 1. -/
lemma pageRanks_sum_closed {ids : List String} (adj : Adj) (hnd : ids.Nodup)
    (hne : ids ≠ []) (hadj : ∀ u, ∀ t ∈ adjGet adj u, t ∈ ids) :
    ∀ k, prSum ids (pageRanksAfter ids adj k) =
      1 + (17/20) ^ k * ((ids.length : ℚ) - 1) := by
  intro k
  induction k with
  | zero =>
    show prSum ids (fun x => if x ∈ ids then 1 else 0) = _
    rw [prSum_ite_const ids 1]
    ring
  | succ k ih =>
    show prSum ids (prRound ids adj (pageRanksAfter ids adj k)) = _
    rw [prRound_sum adj hnd hne hadj _, ih]
    ring

/-- C2 (amended): PageRank starts from rank 1 per node (not `1/n`), and
after the 10 damped (0.85) power-iteration rounds with sinks
redistributing uniformly, the total rank over the node list equals
`1 + 0.85¹⁰ · (n − 1)` exactly — which is ≈ 1 only for `n = 1` and
converges to 1 only as the iteration count grows. -/
theorem claim_C2_pagerank_sum {ids : List String} (adj : Adj)
    (hnd : ids.Nodup) (hne : ids ≠ [])
    (hadj : ∀ u, ∀ t ∈ adjGet adj u, t ∈ ids) :
    (∀ x ∈ ids, pageRanksAfter ids adj 0 x = 1) ∧
    prSum ids (pageRanksAfter ids adj 10) =
      1 + (17/20) ^ 10 * ((ids.length : ℚ) - 1) := by
  constructor
  · intro x hx
    show (if x ∈ ids then (1 : ℚ) else 0) = 1
    rw [if_pos hx]
  · exact pageRanks_sum_closed adj hnd hne hadj 10

/-- The 2-node graph `x → y`. -/
def prIds2 : List String := ["x", "y"]

/-- Adjacency of the 2-node graph `x → y` (`y` is a sink). -/
def prAdj2 : Adj := [("x", ["y"]), ("y", [])]

lemma prAdj2_closed : ∀ u, ∀ t ∈ adjGet prAdj2 u, t ∈ prIds2 := by
  intro u t ht
  unfold adjGet prAdj2 at ht
  cases hf : List.find? (fun p => p.1 == u) [("x", ["y"]), ("y", [])] with
  | none => rw [hf] at ht; simp at ht
  | some p =>
    rw [hf] at ht
    have hp := List.mem_of_find?_eq_some hf
    simp only [List.mem_cons, List.not_mem_nil, or_false] at hp
    rcases hp with rfl | rfl
    · simp only [List.mem_singleton] at ht
      subst ht
      simp [prIds2]
    · simp at ht

/-- Witness for the amended C2 at a concrete input: the 2-node graph
`x → y` has total rank `1 + 0.85¹⁰` after 10 rounds. -/
theorem claim_C2_pagerank_sum_witness :
    prIds2.Nodup ∧
    prSum prIds2 (pageRanksAfter prIds2 prAdj2 10) =
      1 + (17/20) ^ 10 * ((prIds2.length : ℚ) - 1) := by
  refine ⟨by decide, ?_⟩
  exact (claim_C2_pagerank_sum prAdj2 (by decide) (by decide) prAdj2_closed).2

/-- Counterexample to C2 as stated: on the 2-node graph `x → y` the
initial rank of each node is 1 (not `1/2`), and the sum of pageRank after
the 10 rounds is `1 + 0.85¹⁰ > 1.19`, not within floating-point tolerance
of 1. -/
theorem claim_C2_counterexample :
    pageRanksAfter prIds2 prAdj2 0 "x" = 1 ∧
    ((1 : ℚ) ≠ 1 / 2) ∧
    prSum prIds2 (pageRanksAfter prIds2 prAdj2 10) = 1 + (17/20) ^ 10 ∧
    (1 + (17/20 : ℚ) ^ 10) > 11/10 := by
  refine ⟨by decide, by norm_num, ?_, by norm_num⟩
  have h := @pageRanks_sum_closed prIds2 prAdj2
    (by decide) (by decide) prAdj2_closed 10
  rw [h]
  norm_num [prIds2]

/-! ## BFS verification: ball and shortest-distance lemmas -/

/-- The finite universe a BFS from `start` can ever visit. -/
def univFinset (adj : Adj) (start : String) : Finset String :=
  (start :: (adj.map Prod.snd).flatten).toFinset

lemma ball_succ (adj : Adj) (s : String) (n : Nat) :
    ball adj s (n + 1) =
      ball adj s n ∪ (ball adj s n).biUnion (fun u => (adjGet adj u).toFinset) := rfl

lemma mem_ball_succ_iff {adj : Adj} {s v : String} {n : Nat} :
    v ∈ ball adj s (n + 1) ↔
      v ∈ ball adj s n ∨ ∃ u ∈ ball adj s n, v ∈ adjGet adj u := by
  rw [ball_succ]
  simp [Finset.mem_union, Finset.mem_biUnion, List.mem_toFinset]

lemma ball_subset_succ (adj : Adj) (s : String) (n : Nat) :
    ball adj s n ⊆ ball adj s (n + 1) := by
  rw [ball_succ]
  exact Finset.subset_union_left

lemma ball_mono (adj : Adj) (s : String) {m n : Nat} (h : m ≤ n) :
    ball adj s m ⊆ ball adj s n := by
  induction n with
  | zero => rw [Nat.le_zero.1 h]
  | succ n ih =>
    rcases Nat.le_succ_iff.1 h with h' | rfl
    · exact (ih h').trans (ball_subset_succ adj s n)
    · rfl

lemma start_mem_ball (adj : Adj) (s : String) (n : Nat) : s ∈ ball adj s n :=
  ball_mono adj s (Nat.zero_le n) (by simp [ball])

lemma adjGet_sub_flatten {adj : Adj} {u v : String} (h : v ∈ adjGet adj u) :
    v ∈ (adj.map Prod.snd).flatten := by
  unfold adjGet at h
  cases hf : adj.find? (fun p => p.1 == u) with
  | none => rw [hf] at h; simp at h
  | some p =>
    rw [hf] at h
    exact List.mem_flatten.2 ⟨p.2,
      List.mem_map.2 ⟨p, List.mem_of_find?_eq_some hf, rfl⟩, h⟩

lemma ball_subset_univ (adj : Adj) (s : String) (n : Nat) :
    ball adj s n ⊆ univFinset adj s := by
  induction n with
  | zero =>
    intro v hv
    simp only [ball, Finset.mem_singleton] at hv
    subst hv
    simp [univFinset]
  | succ n ih =>
    intro v hv
    rcases mem_ball_succ_iff.1 hv with hv | ⟨u, _, hu⟩
    · exact ih hv
    · simp only [univFinset, List.mem_toFinset, List.mem_cons]
      exact Or.inr (adjGet_sub_flatten hu)

lemma ball_stab {adj : Adj} {s : String} {n : Nat}
    (h : ball adj s (n + 1) = ball adj s n) :
    ∀ k, ball adj s (n + k) = ball adj s n := by
  intro k
  induction k with
  | zero => rfl
  | succ k ih =>
    have : n + (k + 1) = (n + k) + 1 := rfl
    rw [this, ball_succ, ih, ← ball_succ, h]

lemma ball_card_ge {adj : Adj} {s : String} :
    ∀ n, (∀ m < n, ball adj s (m + 1) ≠ ball adj s m) →
      n + 1 ≤ (ball adj s n).card := by
  intro n
  induction n with
  | zero =>
    intro _
    have : s ∈ ball adj s 0 := start_mem_ball adj s 0
    exact Finset.card_pos.2 ⟨s, this⟩
  | succ n ih =>
    intro h
    have hne : ball adj s (n + 1) ≠ ball adj s n := h n (Nat.lt_succ_self n)
    have hss : ball adj s n ⊂ ball adj s (n + 1) :=
      (Finset.ssubset_iff_subset_ne.2 ⟨ball_subset_succ adj s n, fun hc => hne hc.symm⟩)
    have := Finset.card_lt_card hss
    have hih := ih (fun m hm => h m (Nat.lt_succ_of_lt hm))
    omega

lemma exists_stable_index (adj : Adj) (s : String) :
    ∃ m ≤ (univFinset adj s).card, ball adj s (m + 1) = ball adj s m := by
  by_contra hc
  push_neg at hc
  have hlt : ∀ m < (univFinset adj s).card + 1, ball adj s (m + 1) ≠ ball adj s m := by
    intro m hm
    exact hc m (by omega)
  have h1 := ball_card_ge ((univFinset adj s).card + 1) hlt
  have h2 := Finset.card_le_card (ball_subset_univ adj s ((univFinset adj s).card + 1))
  omega

lemma ball_le_reachFinset {adj : Adj} {s : String} (n : Nat) :
    ball adj s n ⊆ reachFinset adj s := by
  rcases exists_stable_index adj s with ⟨m, hm, hstab⟩
  intro v hv
  unfold reachFinset ballBound
  have huniv : ballBound adj s = (univFinset adj s).card := rfl
  by_cases hn : n ≤ (univFinset adj s).card
  · exact ball_mono adj s hn hv
  · have h1 : ball adj s n = ball adj s m := by
      have : n = m + (n - m) := by omega
      rw [this]
      exact ball_stab hstab (n - m)
    have h2 : ball adj s m ⊆ ball adj s (univFinset adj s).card :=
      ball_mono adj s hm
    exact h2 (h1 ▸ hv)

lemma reaches_iff_mem_reachFinset {adj : Adj} {s v : String} :
    reaches adj s v ↔ v ∈ reachFinset adj s := by
  constructor
  · rintro ⟨n, hn⟩
    exact ball_le_reachFinset n hn
  · intro h
    exact ⟨ballBound adj s, h⟩

lemma leastLe_none_spec {p : Nat → Bool} :
    ∀ {N : Nat}, leastLe p N = none → ∀ j ≤ N, p j = false := by
  intro N
  induction N with
  | zero =>
    intro h j hj
    interval_cases j
    cases hp : p 0
    · rfl
    · unfold leastLe at h
      rw [hp] at h
      simp at h
  | succ N ih =>
    intro h j hj
    unfold leastLe at h
    cases hN : leastLe p N with
    | some k => rw [hN] at h; cases h
    | none =>
      rw [hN] at h
      by_cases hj' : j ≤ N
      · exact ih hN j hj'
      · have hje : j = N + 1 := by omega
        subst hje
        cases hp : p (N + 1)
        · rfl
        · rw [hp] at h
          simp at h

lemma leastLe_some_spec {p : Nat → Bool} :
    ∀ {N : Nat} (k : Nat), leastLe p N = some k →
      p k = true ∧ (∀ j < k, p j = false) ∧ k ≤ N := by
  intro N
  induction N with
  | zero =>
    intro k h
    unfold leastLe at h
    cases hp : p 0
    · rw [hp] at h
      simp at h
    · rw [hp] at h
      simp only [if_true] at h
      injection h with hk
      subst hk
      exact ⟨hp, fun j hj => absurd hj (Nat.not_lt_zero j), le_rfl⟩
  | succ N ih =>
    intro k h
    unfold leastLe at h
    cases hN : leastLe p N with
    | some k' =>
      rw [hN] at h
      injection h with hk
      subst hk
      rcases ih k' hN with ⟨h1, h2, h3⟩
      exact ⟨h1, h2, Nat.le_succ_of_le h3⟩
    | none =>
      rw [hN] at h
      have hall := leastLe_none_spec hN
      cases hp : p (N + 1)
      · rw [hp] at h
        simp at h
      · rw [hp] at h
        simp only [if_true] at h
        injection h with hk
        subst hk
        exact ⟨hp, fun j hj => hall j (by omega), le_rfl⟩

lemma sdist_spec {adj : Adj} {s v : String} (hv : v ∈ reachFinset adj s) :
    v ∈ ball adj s (sdist adj s v) ∧ ∀ j < sdist adj s v, v ∉ ball adj s j := by
  unfold sdist
  cases hL : leastLe (fun n => decide (v ∈ ball adj s n)) (ballBound adj s) with
  | none =>
    exfalso
    have hfalse := leastLe_none_spec hL (ballBound adj s) le_rfl
    rw [decide_eq_false_iff_not] at hfalse
    exact hfalse hv
  | some k =>
    rcases leastLe_some_spec k hL with ⟨h1, h2, _⟩
    rw [decide_eq_true_eq] at h1
    simp only [Option.getD_some]
    refine ⟨h1, fun j hj => ?_⟩
    have := h2 j hj
    rw [decide_eq_false_iff_not] at this
    exact this

lemma sdist_eq_of {adj : Adj} {s v : String} {d : Nat}
    (hd : v ∈ ball adj s d) (hmin : ∀ j < d, v ∉ ball adj s j) :
    sdist adj s v = d := by
  have hv : v ∈ reachFinset adj s := ball_le_reachFinset d hd
  rcases sdist_spec hv with ⟨h1, h2⟩
  rcases Nat.lt_trichotomy (sdist adj s v) d with h | h | h
  · exact absurd h1 (hmin _ h)
  · exact h
  · exact absurd hd (h2 d h)

lemma mem_ball_zero {adj : Adj} {s v : String} :
    v ∈ ball adj s 0 ↔ v = s := by
  simp [ball]

lemma sdist_start (adj : Adj) (s : String) : sdist adj s s = 0 :=
  sdist_eq_of (mem_ball_zero.2 rfl) (fun j hj => absurd hj (Nat.not_lt_zero j))

lemma sdist_pos {adj : Adj} {s v : String} (hv : v ∈ reachFinset adj s)
    (hne : v ≠ s) : 0 < sdist adj s v := by
  rcases sdist_spec hv with ⟨h1, _⟩
  rcases Nat.eq_zero_or_pos (sdist adj s v) with h | h
  · rw [h] at h1
    exact absurd (mem_ball_zero.1 h1) hne
  · exact h

/-! ## BFS verification: the inner neighbour loop -/

/-- The sequence of fresh discoveries the inner loop of lines 159-166
makes from a given visited set. -/
def newOnes (vis : List String) : List String → List String
  | [] => []
  | w :: ws => if w ∈ vis then newOnes vis ws else w :: newOnes (vis ++ [w]) ws

lemma visitNbrs_eq :
    ∀ (ws : List String) (st : BfsState) (d : Nat),
      visitNbrs ws d st =
        { q := st.q ++ (newOnes st.visited ws).map (fun v => (v, d + 1)),
          visited := st.visited ++ newOnes st.visited ws,
          totalDist := st.totalDist,
          reachable := st.reachable,
          discovered := st.discovered ++ newOnes st.visited ws } := by
  intro ws
  induction ws with
  | nil =>
    intro st d
    simp [visitNbrs, newOnes]
  | cons w ws ih =>
    intro st d
    by_cases hw : w ∈ st.visited
    · have hstep : visitNbrs (w :: ws) d st = visitNbrs ws d st := by
        unfold visitNbrs
        simp only [List.foldl_cons, if_pos hw]
      rw [hstep, ih st d]
      simp [newOnes, hw]
    · have hstep : visitNbrs (w :: ws) d st = visitNbrs ws d
          { q := st.q ++ [(w, d + 1)],
            visited := st.visited ++ [w],
            totalDist := st.totalDist,
            reachable := st.reachable,
            discovered := st.discovered ++ [w] } := by
        unfold visitNbrs
        simp only [List.foldl_cons, if_neg hw]
      rw [hstep, ih _ d]
      simp [newOnes, hw, List.append_assoc]

lemma newOnes_sub : ∀ (ws vis : List String) (v : String),
    v ∈ newOnes vis ws → v ∈ ws ∧ v ∉ vis := by
  intro ws
  induction ws with
  | nil => intro vis v h; simp [newOnes] at h
  | cons w ws ih =>
    intro vis v h
    unfold newOnes at h
    by_cases hw : w ∈ vis
    · rw [if_pos hw] at h
      rcases ih vis v h with ⟨h1, h2⟩
      exact ⟨List.mem_cons_of_mem w h1, h2⟩
    · rw [if_neg hw] at h
      rcases List.mem_cons.1 h with rfl | h'
      · exact ⟨List.mem_cons_self v ws, hw⟩
      · rcases ih (vis ++ [w]) v h' with ⟨h1, h2⟩
        exact ⟨List.mem_cons_of_mem w h1,
          fun hc => h2 (List.mem_append_left [w] hc)⟩

lemma newOnes_append_nodup : ∀ (ws vis : List String), vis.Nodup →
    (vis ++ newOnes vis ws).Nodup := by
  intro ws
  induction ws with
  | nil => intro vis h; simpa [newOnes] using h
  | cons w ws ih =>
    intro vis h
    unfold newOnes
    by_cases hw : w ∈ vis
    · rw [if_pos hw]
      exact ih vis h
    · rw [if_neg hw]
      have h2 : (vis ++ [w]).Nodup := by
        simp [List.nodup_append, h, hw]
      have := ih (vis ++ [w]) h2
      simpa [List.append_assoc] using this

lemma newOnes_covers : ∀ (ws vis : List String) (w : String), w ∈ ws →
    w ∈ vis ∨ w ∈ newOnes vis ws := by
  intro ws
  induction ws with
  | nil => intro vis w h; simp at h
  | cons w0 ws ih =>
    intro vis w h
    unfold newOnes
    by_cases hw0 : w0 ∈ vis
    · rw [if_pos hw0]
      rcases List.mem_cons.1 h with rfl | h'
      · exact Or.inl hw0
      · exact ih vis w h'
    · rw [if_neg hw0]
      rcases List.mem_cons.1 h with rfl | h'
      · exact Or.inr (List.mem_cons_self w _)
      · rcases ih (vis ++ [w0]) w h' with hv | hn
        · rcases List.mem_append.1 hv with hv | hv
          · exact Or.inl hv
          · simp at hv
            subst hv
            exact Or.inr (List.mem_cons_self w _)
        · exact Or.inr (List.mem_cons_of_mem w0 hn)

/-! ## BFS verification: the loop invariant -/

/-- The BFS loop invariant.  `popped` is the (ghost) list of dequeued
(node, distance) pairs, in dequeue order: the visited list is exactly the
enqueued nodes, queue labels are exact shortest-path distances, the queue
holds at most two consecutive levels, every ball up to the current level
is already visited, and dequeued nodes have all neighbours visited. -/
def BfsInv (adj : Adj) (start : String) (st : BfsState) : Prop :=
  ∃ popped : List (String × Nat),
    st.visited = (popped ++ st.q).map Prod.fst ∧
    st.visited.Nodup ∧
    (∀ pr ∈ popped ++ st.q,
      pr.1 ∈ ball adj start pr.2 ∧ ∀ j < pr.2, pr.1 ∉ ball adj start j) ∧
    st.totalDist = (popped.map Prod.snd).sum ∧
    st.reachable = (popped.filter (fun pr => decide (0 < pr.2))).length ∧
    st.discovered = ((popped ++ st.q).map Prod.fst).filter (fun v => v ≠ start) ∧
    (∀ pr ∈ popped, ∀ w ∈ adjGet adj pr.1, w ∈ st.visited) ∧
    start ∈ st.visited ∧
    (∃ d qa qb, st.q = qa ++ qb ∧ (∀ x ∈ qa, x.2 = d) ∧
      (∀ x ∈ qb, x.2 = d + 1) ∧ ∀ v ∈ ball adj start d, v ∈ st.visited)

lemma bfs_step {adj : Adj} {start : String} {st : BfsState}
    {c : String} {dc : Nat} {rest : List (String × Nat)}
    (hInv : BfsInv adj start st) (hq0 : st.q = (c, dc) :: rest) :
    BfsInv adj start (visitNbrs (adjGet adj c) dc
      { st with q := rest,
                totalDist := st.totalDist + dc,
                reachable := if 0 < dc then st.reachable + 1 else st.reachable }) := by
  obtain ⟨popped, hvis, hnodup, hdist, htot, hreach, hdisc, hclosed, hstart,
    d0, qa, qb, hsplit, hqa, hqb, hball⟩ := hInv
  -- normalize the two-level structure so that the head has the lower level
  have hnorm : ∃ qa2 qb2, rest = qa2 ++ qb2 ∧ (∀ x ∈ qa2, x.2 = dc) ∧
      (∀ x ∈ qb2, x.2 = dc + 1) ∧ (∀ v ∈ ball adj start dc, v ∈ st.visited) := by
    cases qa with
    | nil =>
      -- the whole queue is at level d0+1, so dc = d0+1 and ball (d0+1) ⊆ visited
      rw [List.nil_append] at hsplit
      have hhead : (c, dc) ∈ qb := by
        rw [← hsplit, hq0]
        exact List.mem_cons_self _ _
      have hdc : dc = d0 + 1 := hqb _ hhead
      have hq_all : ∀ x ∈ st.q, x.2 = d0 + 1 := fun x hx => hqb x (hsplit ▸ hx)
      have hball' : ∀ v ∈ ball adj start (d0 + 1), v ∈ st.visited := by
        intro v hv
        rcases mem_ball_succ_iff.1 hv with hv' | ⟨u, hu, hvu⟩
        · exact hball v hv'
        · have hu_vis := hball u hu
          rw [hvis] at hu_vis
          rcases List.mem_map.1 hu_vis with ⟨pr, hpr, hfst⟩
          rcases List.mem_append.1 hpr with hpp | hpq
          · exact hclosed pr hpp v (by rw [hfst]; exact hvu)
          · have hlab : pr.2 = d0 + 1 := hq_all pr hpq
            have hmin := (hdist pr (List.mem_append_right popped hpq)).2
            rw [hlab] at hmin
            exact absurd (hfst.symm ▸ hu) (hmin d0 (Nat.lt_succ_self d0))
      refine ⟨rest, [], (List.append_nil rest).symm, ?_, by simp, hdc ▸ hball'⟩
      intro x hx
      rw [hdc]
      exact hq_all x (hq0 ▸ List.mem_cons_of_mem _ hx)
    | cons x qa'' =>
      have hx : x = (c, dc) ∧ qa'' ++ qb = rest := by
        rw [hq0] at hsplit
        simp only [List.cons_append, List.cons.injEq] at hsplit
        exact ⟨hsplit.1.symm, hsplit.2.symm⟩
      have hdc : dc = d0 := by
        have := hqa x (List.mem_cons_self x qa'')
        rw [hx.1] at this
        exact this
      refine ⟨qa'', qb, hx.2.symm, ?_, ?_, ?_⟩
      · intro y hy
        rw [hdc]
        exact hqa y (List.mem_cons_of_mem x hy)
      · intro y hy
        rw [hdc]
        exact hqb y hy
      · rw [hdc]
        exact hball
  obtain ⟨qa2, qb2, hrest, hqa2, hqb2, hballd⟩ := hnorm
  -- abbreviations for the stepped state
  rw [visitNbrs_eq]
  set N := newOnes st.visited (adjGet adj c) with hN
  have hcq : (c, dc) ∈ popped ++ st.q :=
    List.mem_append_right popped (hq0 ▸ List.mem_cons_self _ _)
  have hN_sub : ∀ w ∈ N, w ∈ adjGet adj c ∧ w ∉ st.visited :=
    fun w hw => newOnes_sub _ _ w hw
  have hN_ne_start : ∀ w ∈ N, w ≠ start :=
    fun w hw hc' => (hN_sub w hw).2 (hc' ▸ hstart)
  have hkey : ((popped ++ [(c, dc)]) ++ (rest ++ N.map (fun v => (v, dc + 1)))).map
      Prod.fst = ((popped ++ st.q).map Prod.fst) ++ N := by
    rw [hq0]
    simp only [List.map_append, List.map_map, List.map_cons, List.cons_append,
      List.append_assoc, List.nil_append]
    have hid : (Prod.fst ∘ fun v : String => (v, dc + 1)) = id := rfl
    rw [hid, List.map_id]
  refine ⟨popped ++ [(c, dc)], ?_, ?_, ?_, ?_, ?_, ?_, ?_, ?_, ?_⟩
  · -- visited = enqueue transcript
    show st.visited ++ N = _
    rw [hkey, hvis]
  · -- visited nodup
    show (st.visited ++ N).Nodup
    exact newOnes_append_nodup _ _ hnodup
  · -- labels are exact distances
    intro pr hpr
    simp only [List.append_assoc, List.mem_append, List.mem_singleton] at hpr
    rcases hpr with hp | hp | hp | hp
    · exact hdist pr (List.mem_append_left _ hp)
    · exact hdist pr (hp ▸ hcq)
    · exact hdist pr (List.mem_append_right _ (hq0 ▸ List.mem_cons_of_mem _ hp))
    · rcases List.mem_map.1 hp with ⟨w, hw, rfl⟩
      constructor
      · exact mem_ball_succ_iff.2 (Or.inr ⟨c, (hdist _ hcq).1, (hN_sub w hw).1⟩)
      · intro j hj hmem
        have hwdc : w ∈ ball adj start dc :=
          ball_mono adj start (by omega) hmem
        exact (hN_sub w hw).2 (hballd w hwdc)
  · -- total distance
    show st.totalDist + dc = _
    rw [htot]
    simp
  · -- reachable counter
    show (if 0 < dc then st.reachable + 1 else st.reachable) = _
    rw [hreach, List.filter_append]
    by_cases hdc : 0 < dc
    · rw [if_pos hdc]
      have : List.filter (fun pr => decide (0 < pr.2)) [(c, dc)] = [(c, dc)] := by
        simp [hdc]
      rw [this]
      simp
    · rw [if_neg hdc]
      have : List.filter (fun pr => decide (0 < pr.2)) [(c, dc)] = [] := by
        simp [hdc]
      rw [this]
      simp
  · -- discovered transcript
    show st.discovered ++ N = _
    rw [hkey, hdisc, List.filter_append]
    congr 1
    refine (List.filter_eq_self.2 ?_).symm
    intro w hw
    simpa using hN_ne_start w hw
  · -- processed nodes have all neighbours visited
    intro pr hpr w hw
    show w ∈ st.visited ++ N
    rcases List.mem_append.1 hpr with hp | hp
    · exact List.mem_append_left N (hclosed pr hp w hw)
    · simp only [List.mem_singleton] at hp
      subst hp
      rcases newOnes_covers (adjGet adj c) st.visited w hw with hv | hn
      · exact List.mem_append_left N hv
      · exact List.mem_append_right _ hn
  · -- start is visited
    exact List.mem_append_left N hstart
  · -- two-level queue structure
    refine ⟨dc, qa2, qb2 ++ N.map (fun v => (v, dc + 1)), ?_, hqa2, ?_, ?_⟩
    · show rest ++ _ = _
      rw [hrest, List.append_assoc]
    · intro x hx
      rcases List.mem_append.1 hx with hx | hx
      · exact hqb2 x hx
      · rcases List.mem_map.1 hx with ⟨w, _, rfl⟩
        rfl
    · intro v hv
      exact List.mem_append_left N (hballd v hv)

lemma bfsLoop_master (adj : Adj) (start : String) :
    ∀ (fuel : Nat) (st : BfsState), BfsInv adj start st →
      (∀ v ∈ st.visited, v ∈ univFinset adj start) →
      st.q.length + ((univFinset adj start).card - st.visited.toFinset.card) ≤ fuel →
      BfsInv adj start (bfsLoop adj fuel st) ∧ (bfsLoop adj fuel st).q = [] := by
  intro fuel
  induction fuel with
  | zero =>
    intro st hInv hsub hfuel
    have hq : st.q = [] := by
      have := Nat.le_zero.1 hfuel
      exact List.length_eq_zero.1 (by omega)
    exact ⟨hInv, hq⟩
  | succ fuel ih =>
    intro st hInv hsub hfuel
    cases hq0 : st.q with
    | nil =>
      have : bfsLoop adj (fuel + 1) st = st := by
        unfold bfsLoop
        rw [hq0]
      rw [this]
      exact ⟨hInv, hq0⟩
    | cons pr rest =>
      obtain ⟨c, dc⟩ := pr
      have hstep : bfsLoop adj (fuel + 1) st = bfsLoop adj fuel
          (visitNbrs (adjGet adj c) dc
            { st with q := rest,
                      totalDist := st.totalDist + dc,
                      reachable := if 0 < dc then st.reachable + 1
                                   else st.reachable }) := by
        conv_lhs => rw [bfsLoop]
        rw [hq0]
      rw [hstep]
      have hInv' := bfs_step hInv hq0
      rw [visitNbrs_eq] at hInv' ⊢
      set N := newOnes st.visited (adjGet adj c) with hNdef
      -- next state's visited stays inside the universe
      have hNuniv : ∀ w ∈ N, w ∈ univFinset adj start := by
        intro w hw
        have := (newOnes_sub _ _ w hw).1
        simp only [univFinset, List.mem_toFinset, List.mem_cons]
        exact Or.inr (adjGet_sub_flatten this)
      have hsub' : ∀ v ∈ st.visited ++ N, v ∈ univFinset adj start := by
        intro v hv
        rcases List.mem_append.1 hv with hv | hv
        · exact hsub v hv
        · exact hNuniv v hv
      -- fuel bookkeeping
      have hvseq : st.visited.toFinset.card = st.visited.length := by
        -- visited is nodup by the invariant
        obtain ⟨popped, hvis, hnodup, _⟩ := hInv
        exact List.toFinset_card_of_nodup hnodup
      have hnodup' : (st.visited ++ N).Nodup := by
        obtain ⟨popped, hvis, hnodup, _⟩ := hInv
        exact newOnes_append_nodup _ _ hnodup
      have hvseq' : (st.visited ++ N).toFinset.card = st.visited.length + N.length := by
        rw [List.toFinset_card_of_nodup hnodup']
        simp
      have hle : (st.visited ++ N).toFinset.card ≤ (univFinset adj start).card := by
        apply Finset.card_le_card
        intro v hv
        exact hsub' v (List.mem_toFinset.1 hv)
      have hle0 : st.visited.toFinset.card ≤ (univFinset adj start).card := by
        apply Finset.card_le_card
        intro v hv
        exact hsub v (List.mem_toFinset.1 hv)
      have hfuel' : (rest ++ N.map (fun v => (v, dc + 1))).length +
          ((univFinset adj start).card - (st.visited ++ N).toFinset.card) ≤ fuel := by
        have hql : st.q.length = rest.length + 1 := by rw [hq0]; simp
        have hql' : (rest ++ N.map (fun v => (v, dc + 1))).length =
            rest.length + N.length := by simp
        omega
      exact ih _ hInv' hsub' hfuel'

lemma bfs_final {adj : Adj} {start : String} {st : BfsState}
    (hInv : BfsInv adj start st) (hq : st.q = []) :
    st.visited.Nodup ∧
    st.visited.toFinset = reachFinset adj start ∧
    st.totalDist = ∑ v in reachFinset adj start, sdist adj start v ∧
    st.reachable = (reachFinset adj start).card - 1 ∧
    (∀ v, v ∈ st.discovered ↔ v ∈ reachFinset adj start ∧ v ≠ start) ∧
    st.discovered.Nodup := by
  obtain ⟨popped, hvis, hnodup, hdist, htot, hreach, hdisc, hclosed, hstart,
    _, _, _, _⟩ := hInv
  rw [hq, List.append_nil] at hvis hdist hdisc
  -- every visited node is reachable, with its label the exact distance
  have hvisited_reach : ∀ v ∈ st.visited, v ∈ reachFinset adj start := by
    intro v hv
    rw [hvis] at hv
    rcases List.mem_map.1 hv with ⟨pr, hpr, rfl⟩
    exact ball_le_reachFinset pr.2 (hdist pr hpr).1
  -- visited is closed under adjacency
  have hclosed' : ∀ v ∈ st.visited, ∀ w ∈ adjGet adj v, w ∈ st.visited := by
    intro v hv w hw
    rw [hvis] at hv
    rcases List.mem_map.1 hv with ⟨pr, hpr, rfl⟩
    exact hclosed pr hpr w hw
  have hball_sub : ∀ n, ∀ v ∈ ball adj start n, v ∈ st.visited := by
    intro n
    induction n with
    | zero =>
      intro v hv
      rw [mem_ball_zero.1 hv]
      exact hstart
    | succ n ihn =>
      intro v hv
      rcases mem_ball_succ_iff.1 hv with hv | ⟨u, hu, hvu⟩
      · exact ihn v hv
      · exact hclosed' u (ihn u hu) v hvu
  have hvfin : st.visited.toFinset = reachFinset adj start := by
    ext v
    rw [List.mem_toFinset]
    constructor
    · exact hvisited_reach v
    · intro hv
      exact hball_sub (ballBound adj start) v hv
  have hsd : ∀ pr ∈ popped, sdist adj start pr.1 = pr.2 := by
    intro pr hpr
    exact sdist_eq_of (hdist pr hpr).1 (hdist pr hpr).2
  have hcard : popped.length = (reachFinset adj start).card := by
    rw [← hvfin, List.toFinset_card_of_nodup hnodup, hvis, List.length_map]
  refine ⟨hnodup, hvfin, ?_, ?_, ?_, ?_⟩
  · -- total distance is the sum of distances over the reachable set
    rw [htot]
    have h1 : popped.map Prod.snd = popped.map (fun pr => sdist adj start pr.1) :=
      (List.map_congr_left (fun pr hpr => (hsd pr hpr).symm))
    rw [h1]
    have h2 : popped.map (fun pr => sdist adj start pr.1) =
        st.visited.map (sdist adj start) := by
      rw [hvis, List.map_map]
      rfl
    rw [h2, ← hvfin]
    rw [List.sum_toFinset _ hnodup]
  · -- reachable = |R| - 1
    have hsmem : start ∈ List.map Prod.fst popped := hvis ▸ hstart
    rcases List.mem_map.1 hsmem with ⟨pr0, hpr0, hpr0s⟩
    rcases List.append_of_mem hpr0 with ⟨p1, p2, rfl⟩
    have hmapsplit : List.map Prod.fst (p1 ++ pr0 :: p2) =
        List.map Prod.fst p1 ++ pr0.1 :: List.map Prod.fst p2 := by simp
    have hnodup_map : (List.map Prod.fst (p1 ++ pr0 :: p2)).Nodup := by
      rw [← hvis]
      exact hnodup
    rw [hmapsplit] at hnodup_map
    have hnm := (List.nodup_cons.1 (List.nodup_middle.1 hnodup_map)).1
    have hstart_notmem : start ∉ List.map Prod.fst p1 ∧
        start ∉ List.map Prod.fst p2 := by
      rw [← hpr0s]
      exact ⟨fun hc => hnm (List.mem_append.2 (Or.inl hc)),
             fun hc => hnm (List.mem_append.2 (Or.inr hc))⟩
    have hpr0_dist : pr0.2 = 0 := by
      have := hsd pr0 (List.mem_append_right p1 (List.mem_cons_self pr0 p2))
      rw [hpr0s, sdist_start] at this
      exact this.symm
    have hpos : ∀ pr ∈ p1 ++ p2, 0 < pr.2 := by
      intro pr hpr
      have hmem : pr ∈ p1 ++ pr0 :: p2 := by
        rcases List.mem_append.1 hpr with h | h
        · exact List.mem_append_left _ h
        · exact List.mem_append_right _ (List.mem_cons_of_mem pr0 h)
      have hne : pr.1 ≠ start := by
        intro hc
        rcases List.mem_append.1 hpr with h | h
        · exact hstart_notmem.1 (hc ▸ List.mem_map.2 ⟨pr, h, rfl⟩)
        · exact hstart_notmem.2 (hc ▸ List.mem_map.2 ⟨pr, h, rfl⟩)
      have hr : pr.1 ∈ reachFinset adj start :=
        ball_le_reachFinset pr.2 (hdist pr hmem).1
      have := sdist_pos hr hne
      rw [hsd pr hmem] at this
      exact this
    rw [hreach]
    have hfilter : List.filter (fun pr => decide (0 < pr.2)) (p1 ++ pr0 :: p2) =
        List.filter (fun pr => decide (0 < pr.2)) p1 ++
        List.filter (fun pr => decide (0 < pr.2)) p2 := by
      rw [List.filter_append, List.filter_cons]
      have : ¬ 0 < pr0.2 := by omega
      simp [this]
    rw [hfilter]
    have hf1 : List.filter (fun pr => decide (0 < pr.2)) p1 = p1 :=
      List.filter_eq_self.2 (fun pr hpr => by
        simpa using hpos pr (List.mem_append_left p2 hpr))
    have hf2 : List.filter (fun pr => decide (0 < pr.2)) p2 = p2 :=
      List.filter_eq_self.2 (fun pr hpr => by
        simpa using hpos pr (List.mem_append_right p1 hpr))
    rw [hf1, hf2]
    have : (p1 ++ pr0 :: p2).length = (reachFinset adj start).card := hcard
    simp only [List.length_append, List.length_cons] at this
    simp only [List.length_append]
    omega
  · -- discovered = reachable-and-not-start, as a membership property
    intro v
    rw [hdisc, List.mem_filter]
    constructor
    · rintro ⟨hv, hne⟩
      refine ⟨hvisited_reach v (hvis ▸ hv), by simpa using hne⟩
    · rintro ⟨hv, hne⟩
      refine ⟨hvis ▸ hball_sub (ballBound adj start) v hv, by simpa using hne⟩
  · rw [hdisc]
    exact (hvis ▸ hnodup).filter _

lemma bfsRun_spec (adj : Adj) (start : String) :
    BfsInv adj start (bfsRun adj start) ∧ (bfsRun adj start).q = [] := by
  have hInv0 : BfsInv adj start
      ⟨[(start, 0)], [start], 0, 0, []⟩ := by
    refine ⟨[], rfl, by simp, ?_, rfl, rfl, by simp, ?_, by simp,
      0, [(start, 0)], [], rfl, by simp, by simp, ?_⟩
    · intro pr hpr
      simp only [List.nil_append, List.mem_singleton] at hpr
      subst hpr
      exact ⟨mem_ball_zero.2 rfl, fun j hj => absurd hj (Nat.not_lt_zero j)⟩
    · intro pr hpr
      simp at hpr
    · intro v hv
      simp [mem_ball_zero.1 hv]
  have hsub0 : ∀ v ∈ ([start] : List String), v ∈ univFinset adj start := by
    intro v hv
    simp only [List.mem_singleton] at hv
    subst hv
    simp [univFinset]
  have hfuel0 : ([(start, 0)] : List (String × Nat)).length +
      ((univFinset adj start).card - ([start] : List String).toFinset.card) ≤
      bfsFuel adj start := by
    have h1 : ([start] : List String).toFinset.card = 1 := by simp
    have h2 : bfsFuel adj start = (univFinset adj start).card + 1 := rfl
    rw [h1, h2]
    simp only [List.length_singleton]
    omega
  exact bfsLoop_master adj start (bfsFuel adj start)
    ⟨[(start, 0)], [start], 0, 0, []⟩ hInv0 hsub0 hfuel0

/-- C4: for every adjacency record (as built from the directed or
undirected link list, per configuration) and every start node, the
computed closeness equals the number of reachable nodes (excluding the
start) divided by the sum of the shortest-path distances to the reachable
nodes — normalized only by the reachable set — and a node with zero
reachable neighbours gets closeness 0. -/
theorem claim_C4_closeness_formula (adj : Adj) (s : String) :
    closenessOf adj s =
      if 1 < (reachFinset adj s).card then
        (((reachFinset adj s).card - 1 : ℕ) : ℚ) /
          ((∑ v in reachFinset adj s, sdist adj s v : ℕ) : ℚ)
      else 0 := by
  obtain ⟨hInv, hq⟩ := bfsRun_spec adj s
  obtain ⟨hnd, hvfin, htot, hreach, hdisc, hdiscnd⟩ := bfs_final hInv hq
  simp only [closenessOf]
  rw [hreach, htot]
  by_cases hc : 1 < (reachFinset adj s).card
  · rw [if_pos (by omega : 0 < (reachFinset adj s).card - 1), if_pos hc]
  · rw [if_neg (by omega : ¬ 0 < (reachFinset adj s).card - 1), if_neg hc]

/-! ## Claim C1: betweenness -/

lemma bump_fold_count (ids : List String) (x : String) :
    ∀ (ds : List String) (b : String → Nat),
      (ds.foldl (fun b' v => if v ∈ ids then bumpNat b' v else b') b) x =
        b x + ds.countP (fun v => decide (v ∈ ids ∧ v = x)) := by
  intro ds
  induction ds with
  | nil => intro b; simp
  | cons w ds ih =>
    intro b
    simp only [List.foldl_cons, List.countP_cons]
    rw [ih]
    by_cases hw : w ∈ ids
    · by_cases hwx : w = x
      · subst hwx
        simp [bumpNat, hw]
        omega
      · simp [bumpNat, hw, hwx, Ne.symm hwx]
    · simp [hw]

lemma betweenness_fold (ids : List String) (adj : Adj) (x : String) :
    ∀ (us : List String) (b : String → Nat),
      (us.foldl (fun b s => (bfsRun adj s).discovered.foldl
        (fun b' v => if v ∈ ids then bumpNat b' v else b') b) b) x =
      b x + (us.map (fun s => (bfsRun adj s).discovered.countP
        (fun v => decide (v ∈ ids ∧ v = x)))).sum := by
  intro us
  induction us with
  | nil => intro b; simp
  | cons s us ih =>
    intro b
    simp only [List.foldl_cons, List.map_cons, List.sum_cons]
    rw [ih, bump_fold_count]
    omega

lemma countP_eq_ite_mem {l : List String} (hnd : l.Nodup) {ids : List String}
    {x : String} (hx : x ∈ ids) :
    l.countP (fun v => decide (v ∈ ids ∧ v = x)) = if x ∈ l then 1 else 0 := by
  induction l with
  | nil => simp
  | cons w l ih =>
    rcases List.nodup_cons.1 hnd with ⟨hw, hl⟩
    rw [List.countP_cons, ih hl]
    by_cases hwx : w = x
    · subst hwx
      have hxl : w ∉ l := hw
      simp [hx, hxl]
    · have hxw : ¬ x = w := fun hc => hwx hc.symm
      simp only [List.mem_cons]
      by_cases hxl : x ∈ l <;> simp [hxl, hwx, hxw]

lemma sum_ite_eq_filter_length (P : String → Prop) [DecidablePred P] :
    ∀ l : List String, (l.map (fun s => if P s then 1 else 0)).sum =
      (l.filter (fun s => decide (P s))).length := by
  intro l
  induction l with
  | nil => simp
  | cons s l ih =>
    rw [List.map_cons, List.sum_cons, List.filter_cons, ih]
    by_cases hs : P s <;> simp [hs, Nat.add_comm]

/-- C1 (amended): the computed "betweenness" of a node `v` is NOT a
shortest-path dependency accumulation — it is the number of source nodes
`s ≠ v` in the node list from which `v` is reachable (each BFS increments
the counter of every node it discovers, once). -/
theorem claim_C1_betweenness_is_reach_count (ids : List String) (adj : Adj)
    (hnd : ids.Nodup) (v : String) (hv : v ∈ ids) :
    betweennessOf ids adj v =
      (ids.filter (fun s => decide (v ∈ reachFinset adj s ∧ v ≠ s))).length := by
  unfold betweennessOf
  rw [betweenness_fold]
  have hmap : ids.map (fun s => (bfsRun adj s).discovered.countP
      (fun w => decide (w ∈ ids ∧ w = v))) =
      ids.map (fun s => if v ∈ reachFinset adj s ∧ v ≠ s then 1 else 0) := by
    refine List.map_congr_left (fun s _ => ?_)
    obtain ⟨hInv, hq⟩ := bfsRun_spec adj s
    obtain ⟨_, _, _, _, hdisc, hdiscnd⟩ := bfs_final hInv hq
    rw [countP_eq_ite_mem hdiscnd hv]
    by_cases hvd : v ∈ (bfsRun adj s).discovered
    · rw [if_pos hvd, if_pos ((hdisc v).1 hvd)]
    · rw [if_neg hvd, if_neg (fun hc => hvd ((hdisc v).2 hc))]
  rw [hmap, sum_ite_eq_filter_length]
  simp

/-- The 3-node directed path `a → b → c`. -/
def pathIds : List String := ["a", "b", "c"]

/-- Adjacency of the path `a → b → c`. -/
def pathAdj : Adj := [("a", ["b"]), ("b", ["c"]), ("c", [])]

/-- Witness for the amended C1 at a concrete input: on the path
`a → b → c` the computed betweenness of `c` equals the number of other
nodes that reach `c`. -/
theorem claim_C1_betweenness_is_reach_count_witness :
    pathIds.Nodup ∧ "c" ∈ pathIds ∧
    betweennessOf pathIds pathAdj "c" =
      (pathIds.filter
        (fun s => decide ("c" ∈ reachFinset pathAdj s ∧ "c" ≠ s))).length :=
  ⟨by decide, by decide,
   claim_C1_betweenness_is_reach_count pathIds pathAdj (by decide) "c" (by decide)⟩

/-! ## The C1 counterexample: reference Brandes accumulation -/

/-- Association-list lookup used by the reference Brandes implementation. -/
def alookup (l : List (String × α)) (k : String) : Option α :=
  (l.find? (fun p => p.1 == k)).map Prod.snd

/-- Pointwise additive update of a `ℚ`-valued association map (inserting
the key if absent). -/
def aadd (l : List (String × ℚ)) (k : String) (δ : ℚ) : List (String × ℚ) :=
  match alookup l k with
  | some _ => l.map (fun p => if p.1 = k then (p.1, p.2 + δ) else p)
  | none => l ++ [(k, δ)]

/-- Additive update of a `ℕ`-valued association map. -/
def naadd (l : List (String × Nat)) (k : String) (δ : Nat) : List (String × Nat) :=
  match alookup l k with
  | some _ => l.map (fun p => if p.1 = k then (p.1, p.2 + δ) else p)
  | none => l ++ [(k, δ)]

/-- Append to a list-valued association map. -/
def lappend (l : List (String × List String)) (k : String) (v : String) :
    List (String × List String) :=
  match alookup l k with
  | some _ => l.map (fun p => if p.1 = k then (p.1, p.2 ++ [v]) else p)
  | none => l ++ [(k, [v])]

/-- Modelled from the spec: the single-source BFS phase of the standard
(Brandes-style) betweenness algorithm — shortest-path counts `sigma`,
predecessor sets and the BFS finish order, none of which the source
implements.  State: queue, distance map, `sigma` map, predecessor map,
visit order. -/
def brandesBfs (adj : Adj) :
    Nat → List String → List (String × Nat) → List (String × Nat) →
    List (String × List String) → List String →
    (List (String × Nat) × List (String × Nat) ×
     List (String × List String) × List String)
  | 0, _, dist, sigma, preds, order => (dist, sigma, preds, order)
  | _ + 1, [], dist, sigma, preds, order => (dist, sigma, preds, order)
  | fuel + 1, v :: q, dist, sigma, preds, order =>
    let dv := (alookup dist v).getD 0
    let sv := (alookup sigma v).getD 0
    let step := (adjGet adj v).foldl
      (fun (st : List String × List (String × Nat) × List (String × Nat) ×
          List (String × List String)) w =>
        match alookup st.2.1 w with
        | none =>
          (st.1 ++ [w], st.2.1 ++ [(w, dv + 1)], naadd st.2.2.1 w sv,
           lappend st.2.2.2 w v)
        | some dw =>
          if dw = dv + 1 then
            (st.1, st.2.1, naadd st.2.2.1 w sv, lappend st.2.2.2 w v)
          else st)
      (q, dist, sigma, preds)
    brandesBfs adj fuel step.1 step.2.1 step.2.2.1 step.2.2.2 (order ++ [v])

/-- Modelled from the spec: the dependency back-propagation `delta` of the
standard algorithm, processed in reverse BFS-finish order with credit
split proportionally via `sigma` ratios. -/
def brandesDelta (sigma : List (String × Nat))
    (preds : List (String × List String)) (order : List String) :
    List (String × ℚ) :=
  order.reverse.foldl
    (fun δ w =>
      let dw := (alookup δ w).getD 0
      let sw := ((alookup sigma w).getD 1 : ℚ)
      ((alookup preds w).getD []).foldl
        (fun δ p =>
          aadd δ p ((((alookup sigma p).getD 1 : ℚ) / sw) * (1 + dw)))
        δ)
    []

/-- Modelled from the spec: the full standard betweenness — for each
source run the BFS phase, back-propagate dependencies, and add each
node's dependency (excluding the source itself) to its total. -/
def brandesBetweenness (ids : List String) (adj : Adj) (v : String) : ℚ :=
  (ids.map (fun s =>
    if v = s then 0
    else
      let fuel := (adj.map (fun p => p.2.length)).sum + 2
      let r := brandesBfs adj fuel [s] [(s, 0)] [(s, 1)] [] []
      (alookup (brandesDelta r.2.1 r.2.2.1 r.2.2.2) v).getD 0)).sum

/-- Counterexample to C1 as stated: on the directed path `a → b → c` the
metrics engine assigns node `c` betweenness 2 (it counts BFS discoveries,
i.e. how many sources reach `c`), while the standard shortest-path
dependency accumulation described by the claim assigns the pure sink `c`
betweenness 0 (and `b` gets 1 under both). -/
theorem claim_C1_counterexample :
    betweennessOf pathIds pathAdj "c" = 2 ∧
    brandesBetweenness pathIds pathAdj "c" = 0 ∧
    ((2 : ℚ) ≠ 0) := by
  refine ⟨by decide, ?_, by norm_num⟩
  show brandesBetweenness pathIds pathAdj "c" = 0
  simp [brandesBetweenness, brandesBfs, brandesDelta, pathIds, pathAdj,
    adjGet, alookup, aadd, naadd, lappend, List.find?]

end Translatio
